import Mathlib

/-!
Shallow embedding of the Blogzcode blog-content cleaner (`src/app.py`).

Strings are modelled as `List Char`.  Each `re.sub(pattern, repl, text, flags)`
call in `clean_html_content` is modelled by the generic scanner `reSub step`,
where `step` transcribes the attempt to match `pattern` at the current
position of the input (returning the replacement text and the remainder of
the input after the match).  The scanner reproduces `re.sub` semantics for
the patterns occurring in the source: scan left to right, rewrite the
leftmost match, emit non-matching characters verbatim, and continue scanning
after each match (replacement text is not rescanned).  None of the patterns
in the source can match the empty string, so every match consumes at least
one character; the scanner's fuel, initialized to the input length, therefore
never runs out.

Character classes are modelled at ASCII fidelity: Python's regex class for
whitespace is modelled as the six ASCII whitespace characters, its word-class
as ASCII letters, digits and underscore, and `re.IGNORECASE` as ASCII case
folding.  Unicode case folding and Unicode whitespace are outside the model.
-/

namespace Blogzcode

/-- Python whitespace (ASCII): space, tab, newline, carriage return,
vertical tab, form feed.  Used for the regex whitespace class and for
`str.strip()`. -/
def isPyWS (c : Char) : Bool :=
  c == ' ' || c == '\t' || c == '\n' || c == '\r' || c == '\x0b' || c == '\x0c'

/-- The character class `[ \t]` (horizontal whitespace) used by the
whitespace-normalization rules. -/
def isHT (c : Char) : Bool := c == ' ' || c == '\t'

/-- Python word characters (ASCII): letters, digits, underscore. -/
def isWordChar (c : Char) : Bool := c.isAlphanum || c == '_'

/-- View a string literal as the character list it denotes. -/
def str (s : String) : List Char := s.toList

/-- Number of newline characters in a character list. -/
def nlCount (l : List Char) : Nat := l.countP (· == '\n')

/-- Case-insensitive literal match at the start of the input (the pattern is
given lowercase); on success returns the input after the matched literal.
Models a literal regex fragment under `re.IGNORECASE`. -/
def matchCI : List Char → List Char → Option (List Char)
  | [], s => some s
  | _ :: _, [] => none
  | p :: ps, c :: cs => if c.toLower == p then matchCI ps cs else none

/-- Consume the fragment `[^>]*>`: drop characters up to and including the
first `'>'`; `none` when no `'>'` remains (the fragment then fails, since
the class `[^>]` can never consume a `'>'`). -/
def upToGt : List Char → Option (List Char)
  | [] => none
  | c :: cs => if c == '>' then some cs else upToGt cs

/-- Match `<tag[^>]*>` (case-insensitively) at the start of the input: the
literal `<tag`, then everything up to and including the first `'>'`.
Returns the input after that `'>'`. -/
def openTag (tag : List Char) (s : List Char) : Option (List Char) :=
  (matchCI ('<' :: tag) s).bind upToGt

/-- Find the earliest (leftmost) case-insensitive occurrence of `pat`;
returns the text before the occurrence and the text after it.  Models a lazy
body followed by the literal `pat` (with `re.DOTALL`, so the body may span
newlines): the shortest body such that `pat` follows. -/
def splitAtCI (pat : List Char) : List Char → Option (List Char × List Char)
  | [] => if pat.isEmpty then some ([], []) else none
  | c :: cs =>
    match matchCI pat (c :: cs) with
    | some rest => some ([], rest)
    | none => (splitAtCI pat cs).map (fun pr => (c :: pr.1, pr.2))

/-- One `re.sub` pass: at each position try `step`; on a match emit the
replacement and continue after the match, otherwise emit the character and
move one position to the right.  `fuel` bounds the number of scanning steps;
initialized to the input length it never runs out, because every `step` used
here consumes at least one character. -/
def scanAux (step : List Char → Option (List Char × List Char)) :
    Nat → List Char → List Char
  | _, [] => []
  | 0, s => s
  | fuel + 1, c :: cs =>
    match step (c :: cs) with
    | some (out, rest) => out ++ scanAux step fuel rest
    | none => c :: scanAux step fuel cs

/-- `re.sub` with the given per-position matcher. -/
def reSub (step : List Char → Option (List Char × List Char)) (s : List Char) :
    List Char :=
  scanAux step s.length s

/-- The closing-tag literal `</tag>`. -/
def closeTag (tag : List Char) : List Char := '<' :: '/' :: (tag ++ ['>'])

/-- Matcher for `<tag[^>]*>.*?</tag>` (DOTALL, IGNORECASE) with empty
replacement: the block-removal rules (`script`, `style`, `pre`, `code`,
`h2`).  The lazy body ends at the earliest occurrence of the closing tag. -/
def stepBlock (tag : List Char) (s : List Char) : Option (List Char × List Char) :=
  (openTag tag s).bind fun rest =>
    (splitAtCI (closeTag tag) rest).map fun pr => (([] : List Char), pr.2)

/-- Matcher for the HTML-comment pattern (DOTALL) with empty replacement:
the literal comment opener, a lazy body, then the earliest `-->`. -/
def stepComment (s : List Char) : Option (List Char × List Char) :=
  (matchCI (str "<!--") s).bind fun rest =>
    (splitAtCI (str "-->") rest).map fun pr => (([] : List Char), pr.2)

/-- Matcher for `<tag[^>]*/?>` (IGNORECASE): the optional `/` before `>` is
already covered by `[^>]*`, so the match runs from `<tag` to the first `'>'`.
Used with replacement `repl`: empty for the `img` rule, a single space for
the `br` rule, and also for `<p[^>]*>` (empty) in the remove-all-paragraphs
rule. -/
def stepToken (tag repl : List Char) (s : List Char) :
    Option (List Char × List Char) :=
  (openTag tag s).map fun rest => (repl, rest)

/-- Matcher for `<tag[^>]*>(.*?)</tag>` (DOTALL, IGNORECASE) with the
captured body as replacement: the unwrap rules (`a`, `strong`, `em`, `i`,
`span`). -/
def stepUnwrap (tag : List Char) (s : List Char) : Option (List Char × List Char) :=
  (openTag tag s).bind fun rest =>
    (splitAtCI (closeTag tag) rest).map fun pr => (pr.1, pr.2)

/-- Matcher for a case-insensitive literal with a fixed replacement: the
closing-paragraph-to-space rule and the non-breaking-space-entity rule. -/
def stepLit (pat repl : List Char) (s : List Char) : Option (List Char × List Char) :=
  (matchCI pat s).map fun rest => (repl, rest)

/-- Consume the empty-paragraph interior followed by the closing tag: a
sequence of whitespace characters and non-breaking-space entities, then the
literal `</p>` (IGNORECASE).  The three alternatives begin with distinct
characters (whitespace, `'&'`, `'<'`), so the backtracking regex is
equivalent to this deterministic scan. -/
def eatEmptyP : List Char → Option (List Char)
  | [] => none
  | c :: cs =>
    if isPyWS c then eatEmptyP cs
    else if c == '&' then
      match cs with
      | c1 :: c2 :: c3 :: c4 :: c5 :: rest =>
        if c1.toLower == 'n' && c2.toLower == 'b' && c3.toLower == 's'
            && c4.toLower == 'p' && c5 == ';' then
          eatEmptyP rest
        else none
      | _ => none
    else if c == '<' then
      match cs with
      | c1 :: c2 :: c3 :: rest =>
        if c1 == '/' && c2.toLower == 'p' && c3 == '>' then some rest else none
      | _ => none
    else none

/-- Matcher for the empty-paragraph pattern (IGNORECASE): `<p[^>]*>`, an
interior of whitespace and non-breaking-space entities, then `</p>`; removed
entirely. -/
def stepEmptyP (s : List Char) : Option (List Char × List Char) :=
  ((openTag (str "p") s).bind eatEmptyP).map fun rest => (([] : List Char), rest)

/-- Matcher for the attribute-stripping pattern: `'<'`, a captured greedy run
of word characters, then everything to the first `'>'`; replaced by the tag
name in brackets.  The greedy word-run is maximal, and the remainder of the
class `[^>]*` extends to the first `'>'`. -/
def stepAttrs (s : List Char) : Option (List Char × List Char) :=
  match s with
  | '<' :: rest =>
    let w := rest.takeWhile isWordChar
    if w.isEmpty then none
    else
      (upToGt (rest.dropWhile isWordChar)).map fun after =>
        ('<' :: (w ++ ['>']), after)
  | _ => none

/-- Characters of a whitespace run after its last newline. -/
def afterLastNL (run : List Char) : List Char :=
  (run.reverse.takeWhile (· != '\n')).reverse

/-- Characters of a whitespace run before its first newline. -/
def beforeFirstNL (run : List Char) : List Char :=
  run.takeWhile (· != '\n')

/-- Matcher for the first normalization pattern (newline, any whitespace,
newline, any whitespace, one or more newlines) with replacement of two
newlines.  At a position starting with `'\n'`, the backtracking match
succeeds exactly when the whitespace run starting here contains at least 3
newlines, and the match then extends to the last newline of that run. -/
def stepBlank (s : List Char) : Option (List Char × List Char) :=
  match s with
  | '\n' :: _ =>
    let run := s.takeWhile isPyWS
    if 3 ≤ nlCount run then
      some (str "\n\n", afterLastNL run ++ s.dropWhile isPyWS)
    else none
  | _ => none

/-- Matcher for `[ \t]+` with replacement of one space: the greedy match is
the maximal horizontal-whitespace run from this position. -/
def stepHT (s : List Char) : Option (List Char × List Char) :=
  match s with
  | c :: cs => if isHT c then some ([' '], cs.dropWhile isHT) else none
  | [] => none

/-- Matcher for ` +\n` with replacement of one newline: a maximal space run
directly followed by a newline; when the run is not followed by a newline no
match starts inside it. -/
def stepSpaceNL (s : List Char) : Option (List Char × List Char) :=
  match s with
  | ' ' :: cs =>
    match cs.dropWhile (· == ' ') with
    | '\n' :: rest => some (['\n'], rest)
    | _ => none
  | _ => none

/-- Python `str.strip()`: remove leading and trailing whitespace. -/
def pyStrip (s : List Char) : List Char :=
  ((s.dropWhile isPyWS).reverse.dropWhile isPyWS).reverse

/-- The whitespace-normalization step (lines 122-126 of `app.py`): the three
`re.sub` passes followed by `strip()`. -/
def normalizeWS (s : List Char) : List Char :=
  pyStrip (reSub stepSpaceNL (reSub stepHT (reSub stepBlank s)))

/-- The sixteen cleaning flags assembled into `cleaning_options` in the
source, in sidebar order. -/
structure CleaningOptions where
  remove_h2 : Bool
  remove_code : Bool
  remove_script : Bool
  remove_style : Bool
  remove_comments : Bool
  remove_empty_p : Bool
  remove_all_p : Bool
  remove_spans : Bool
  remove_strong : Bool
  remove_em : Bool
  remove_links : Bool
  remove_images : Bool
  remove_br : Bool
  remove_attributes : Bool
  remove_nbsp : Bool
  normalize_whitespace : Bool

/-- Sidebar defaults: every checkbox defaults to true except
`remove_all_p`. -/
def defaultOptions : CleaningOptions where
  remove_h2 := true
  remove_code := true
  remove_script := true
  remove_style := true
  remove_comments := true
  remove_empty_p := true
  remove_all_p := false
  remove_spans := true
  remove_strong := true
  remove_em := true
  remove_links := true
  remove_images := true
  remove_br := true
  remove_attributes := true
  remove_nbsp := true
  normalize_whitespace := true

/-- All sixteen flags disabled. -/
def allOffOptions : CleaningOptions where
  remove_h2 := false
  remove_code := false
  remove_script := false
  remove_style := false
  remove_comments := false
  remove_empty_p := false
  remove_all_p := false
  remove_spans := false
  remove_strong := false
  remove_em := false
  remove_links := false
  remove_images := false
  remove_br := false
  remove_attributes := false
  remove_nbsp := false
  normalize_whitespace := false

/-- One conditional rewriting pass `if flag: text = rule(text)` of the
source. -/
def applyIf (b : Bool) (f : List Char → List Char) (t : List Char) : List Char :=
  if b then f t else t

/-- `clean_html_content(text, options)` (lines 50-128 of `app.py`).  `none`
models a value that is null (`pd.isna`) or not a Python string; the guard at
lines 54-55 returns the empty string for it.  The rules are applied in
source order. -/
def clean_html_content (text : Option (List Char)) (options : CleaningOptions) :
    List Char :=
  match text with
  | none => []
  | some t0 =>
    let t1 := applyIf options.remove_script (reSub (stepBlock (str "script"))) t0
    let t2 := applyIf options.remove_style (reSub (stepBlock (str "style"))) t1
    let t3 := applyIf options.remove_code
      (fun t => reSub (stepBlock (str "code")) (reSub (stepBlock (str "pre")) t)) t2
    let t4 := applyIf options.remove_comments (reSub stepComment) t3
    let t5 := applyIf options.remove_h2 (reSub (stepBlock (str "h2"))) t4
    let t6 := applyIf options.remove_images (reSub (stepToken (str "img") [])) t5
    let t7 := applyIf options.remove_br (reSub (stepToken (str "br") [' '])) t6
    let t8 := applyIf options.remove_links (reSub (stepUnwrap (str "a"))) t7
    let t9 := applyIf options.remove_strong (reSub (stepUnwrap (str "strong"))) t8
    let t10 := applyIf options.remove_em
      (fun t => reSub (stepUnwrap (str "i")) (reSub (stepUnwrap (str "em")) t)) t9
    let t11 := applyIf options.remove_spans (reSub (stepUnwrap (str "span"))) t10
    let t12 := applyIf options.remove_all_p
      (fun t => reSub (stepLit (str "</p>") [' ']) (reSub (stepToken (str "p") []) t)) t11
    let t13 := applyIf (options.remove_empty_p && !options.remove_all_p)
      (reSub stepEmptyP) t12
    let t14 := applyIf options.remove_nbsp (reSub (stepLit (str "&nbsp;") [' '])) t13
    let t15 := applyIf options.remove_attributes (reSub stepAttrs) t14
    applyIf options.normalize_whitespace normalizeWS t15

/-- pandas `astype(str)` at one cell: a missing value (`NaN`) renders as the
three-character string `"nan"`; a string renders as itself. -/
def astype_str : Option (List Char) → List Char
  | none => str "nan"
  | some t => t

/-- `original_lengths = df[text_column].astype(str).str.len()` (line 184). -/
def original_lengths (rows : List (Option (List Char))) : List Nat :=
  (rows.map astype_str).map List.length

/-- The cleaned column produced at line 179: `clean_html_content` applied to
every cell of the selected column, in row order. -/
def cleaned_column (rows : List (Option (List Char))) (options : CleaningOptions) :
    List (List Char) :=
  rows.map fun v => clean_html_content v options

/-- `cleaned_lengths = df["cleaned_content"].str.len()` (line 185). -/
def cleaned_lengths (rows : List (Option (List Char))) (options : CleaningOptions) :
    List Nat :=
  (cleaned_column rows options).map List.length

/-- One entry of the elementwise pandas expression
`(original_lengths - cleaned_lengths) / original_lengths * 100`: division of
zero by zero yields NaN, modelled as `none`; floats are modelled as exact
rationals.  (Division of nonzero by zero, which would yield an infinity,
cannot arise from this pipeline: a zero `astype` length forces the cell to
be the empty string, whose cleaned length is zero — see
`clean_empty_eq_nil` below.) -/
def reduction_term (orig cleaned : Nat) : Option ℚ :=
  if orig = 0 then none else some (((orig : ℚ) - (cleaned : ℚ)) / (orig : ℚ) * 100)

/-- pandas `Series.mean()` with its default `skipna=True`: NaN entries are
dropped, and the mean of an all-NaN (or empty) series is NaN (`none`). -/
def seriesMean (l : List (Option ℚ)) : Option ℚ :=
  let v := l.filterMap id
  if v.isEmpty then none else some (v.sum / (v.length : ℚ))

/-- `avg_reduction = ((original_lengths - cleaned_lengths) / original_lengths
* 100).mean()` (line 187). -/
def avg_reduction (rows : List (Option (List Char))) (options : CleaningOptions) :
    Option ℚ :=
  seriesMean (List.zipWith reduction_term (original_lengths rows)
    (cleaned_lengths rows options))

/-- `len(df)`, the "Rows Processed" metric (line 198). -/
def rows_processed (rows : List (Option (List Char))) : Nat := rows.length

/-- Scan deciding whether `<tag[^>]*>` matches anywhere in the input. -/
def hasOpenTag (tag : List Char) : List Char → Bool
  | [] => false
  | c :: cs => (openTag tag (c :: cs)).isSome || hasOpenTag tag cs

/-- Generic run rewriter (specification-side vocabulary): decompose the text
into maximal runs of characters satisfying `p`; rewrite each run with `f`,
which may also inspect the character following the run; characters outside
runs pass through unchanged. -/
def runMap (p : Char → Bool) (f : List Char → Option Char → List Char) :
    List Char → List Char
  | [] => []
  | c :: cs =>
    if h : p c then
      f ((c :: cs).takeWhile p) ((c :: cs).dropWhile p).head? ++
        runMap p f ((c :: cs).dropWhile p)
    else c :: runMap p f cs
termination_by s => s.length
decreasing_by
  · simp only [List.dropWhile_cons_of_pos h]
    have aux : ∀ l : List Char, (l.dropWhile p).length ≤ l.length := by
      intro l
      induction l with
      | nil => simp [List.dropWhile]
      | cons a t ih =>
        rw [List.dropWhile_cons]
        by_cases hp : p a
        · simp only [hp, if_true]
          exact Nat.le_trans ih (Nat.le_succ _)
        · simp [hp]
    simp only [List.length_cons]
    exact Nat.lt_succ_of_le (aux cs)
  · simp only [List.length_cons]
    exact Nat.lt_succ_self _

/-- The blank-line collapse stated on one whitespace run: when the run
contains at least 3 newlines (that is, at least 2 blank lines), everything
from its first to its last newline becomes exactly one blank line (two
newlines); otherwise the run is unchanged. -/
def collapseRun (run : List Char) : List Char :=
  if 3 ≤ nlCount run then beforeFirstNL run ++ '\n' :: '\n' :: afterLastNL run
  else run

/-- Run-level form of the first normalization pass. -/
def collapseBlankRuns (s : List Char) : List Char :=
  runMap isPyWS (fun run _ => collapseRun run) s

/-- Run-level form of the second normalization pass: every maximal
horizontal-whitespace run becomes a single space. -/
def collapseHorizRuns (s : List Char) : List Char :=
  runMap isHT (fun _ _ => [' ']) s

/-- Run-level form of the third normalization pass: a maximal space run
immediately preceding a newline is deleted. -/
def dropSpacesBeforeNL (s : List Char) : List Char :=
  runMap (· == ' ') (fun run next => if next == some '\n' then [] else run) s

/-- The whitespace normalization in run-level vocabulary: collapse blank-line
runs, collapse horizontal whitespace, strip spaces before line breaks, trim
both ends. -/
def normalizeSpec (s : List Char) : List Char :=
  pyStrip (dropSpacesBeforeNL (collapseHorizRuns (collapseBlankRuns s)))

/-- Modelled from claim C6's words: the first normalization pass collapses a
whitespace run only when it holds 3 or more blank lines — 4 or more
newlines, since a run with `k` newlines separates `k - 1` blank lines — and
leaves runs with fewer blank lines alone. -/
def claimStepBlank (s : List Char) : Option (List Char × List Char) :=
  match s with
  | '\n' :: _ =>
    let run := s.takeWhile isPyWS
    if 4 ≤ nlCount run then
      some (str "\n\n", afterLastNL run ++ s.dropWhile isPyWS)
    else none
  | _ => none

/-- Modelled from claim C6's words: whitespace normalization whose blank-line
sub-rule collapses only runs of 3 or more blank lines. -/
def claimNormalizeWS (s : List Char) : List Char :=
  pyStrip (reSub stepSpaceNL (reSub stepHT (reSub claimStepBlank s)))

/-! ### Facts about the matching primitives -/

theorem matchCI_length {p s r : List Char} (h : matchCI p s = some r) :
    r.length + p.length = s.length := by
  induction p generalizing s with
  | nil =>
    simp only [matchCI, Option.some.injEq] at h
    subst h
    simp
  | cons a ps ih =>
    cases s with
    | nil => simp [matchCI] at h
    | cons c cs =>
      simp only [matchCI] at h
      split at h
      · have := ih h
        simp only [List.length_cons]
        omega
      · exact absurd h (by simp)

theorem matchCI_suffix {p s r : List Char} (h : matchCI p s = some r) : r <:+ s := by
  induction p generalizing s with
  | nil =>
    simp only [matchCI, Option.some.injEq] at h
    subst h
    exact List.suffix_refl _
  | cons a ps ih =>
    cases s with
    | nil => simp [matchCI] at h
    | cons c cs =>
      simp only [matchCI] at h
      split at h
      · exact (ih h).trans (List.suffix_cons c cs)
      · exact absurd h (by simp)

theorem upToGt_spec {s r : List Char} (h : upToGt s = some r) :
    r <:+ s ∧ r.length < s.length := by
  induction s with
  | nil => simp [upToGt] at h
  | cons c cs ih =>
    simp only [upToGt] at h
    split at h
    · simp only [Option.some.injEq] at h
      subst h
      exact ⟨List.suffix_cons c cs, by simp⟩
    · obtain ⟨h1, h2⟩ := ih h
      exact ⟨h1.trans (List.suffix_cons c cs), Nat.lt_trans h2 (by simp)⟩

theorem openTag_spec {tag s r : List Char} (h : openTag tag s = some r) :
    r <:+ s ∧ r.length < s.length := by
  unfold openTag at h
  cases hm : matchCI ('<' :: tag) s with
  | none => rw [hm] at h; exact absurd h (by simp)
  | some m =>
    rw [hm] at h
    simp only [Option.some_bind] at h
    obtain ⟨h1, h2⟩ := upToGt_spec h
    have hl := matchCI_length hm
    have hs := matchCI_suffix hm
    refine ⟨h1.trans hs, ?_⟩
    simp only [List.length_cons] at hl
    omega

theorem splitAtCI_spec {pat s a b : List Char} (h : splitAtCI pat s = some (a, b)) :
    a.length + pat.length + b.length = s.length ∧ b <:+ s := by
  induction s generalizing a b with
  | nil =>
    simp only [splitAtCI] at h
    split at h
    · rename_i hp
      simp only [Option.some.injEq, Prod.mk.injEq] at h
      obtain ⟨rfl, rfl⟩ := h
      simp only [List.isEmpty_iff] at hp
      subst hp
      exact ⟨rfl, List.suffix_refl _⟩
    · exact absurd h (by simp)
  | cons c cs ih =>
    simp only [splitAtCI] at h
    cases hm : matchCI pat (c :: cs) with
    | some rest =>
      rw [hm] at h
      simp only [Option.some.injEq, Prod.mk.injEq] at h
      obtain ⟨rfl, rfl⟩ := h
      have hl := matchCI_length hm
      simp only [List.length_cons] at hl
      refine ⟨?_, matchCI_suffix hm⟩
      simp only [List.length_nil, List.length_cons]
      omega
    | none =>
      rw [hm] at h
      cases hs : splitAtCI pat cs with
      | none => rw [hs] at h; exact absurd h (by simp)
      | some pr =>
        obtain ⟨p1, p2⟩ := pr
        rw [hs] at h
        simp only [Option.map_some', Option.some.injEq, Prod.mk.injEq] at h
        obtain ⟨rfl, rfl⟩ := h.symm
        obtain ⟨h1, h2⟩ := ih hs
        constructor
        · simp only [List.length_cons]
          omega
        · exact h2.trans (List.suffix_cons c cs)

/-- When `pat` does not occur in `s`, it does not occur in any suffix. -/
theorem splitAtCI_none_suffix {pat s t : List Char} (h : splitAtCI pat s = none)
    (ht : t <:+ s) : splitAtCI pat t = none := by
  obtain ⟨u, rfl⟩ := ht
  induction u with
  | nil => simpa using h
  | cons c u ih =>
    apply ih
    simp only [List.cons_append, splitAtCI, List.append_eq] at h
    cases hm : matchCI pat (c :: (u ++ t)) with
    | some rest => rw [hm] at h; exact absurd h (by simp)
    | none =>
      rw [hm] at h
      cases hs : splitAtCI pat (u ++ t) with
      | none => rfl
      | some pr => rw [hs] at h; exact absurd h (by simp)

/-! ### The scanner: fuel irrelevance and unfolding -/

theorem scanAux_fuel_eq {step : List Char → Option (List Char × List Char)}
    (hstep : ∀ t o r, step t = some (o, r) → r.length < t.length) :
    ∀ n fuel fuel' s, s.length ≤ n → s.length ≤ fuel → s.length ≤ fuel' →
      scanAux step fuel s = scanAux step fuel' s := by
  intro n
  induction n with
  | zero =>
    intro fuel fuel' s hn _ _
    have : s = [] := List.length_eq_zero.mp (Nat.le_zero.mp hn)
    subst this
    cases fuel <;> cases fuel' <;> simp [scanAux]
  | succ n ih =>
    intro fuel fuel' s hn hf hf'
    cases s with
    | nil => cases fuel <;> cases fuel' <;> simp [scanAux]
    | cons c cs =>
      simp only [List.length_cons] at hn hf hf'
      cases fuel with
      | zero => omega
      | succ f =>
        cases fuel' with
        | zero => omega
        | succ f' =>
          simp only [scanAux]
          cases hstep0 : step (c :: cs) with
          | none =>
            have h2 : scanAux step f cs = scanAux step f' cs :=
              ih f f' cs (by omega) (by omega) (by omega)
            show c :: scanAux step f cs = c :: scanAux step f' cs
            rw [h2]
          | some pr =>
            obtain ⟨o, r⟩ := pr
            have hr := hstep _ _ _ hstep0
            simp only [List.length_cons] at hr
            have h2 : scanAux step f r = scanAux step f' r :=
              ih f f' r (by omega) (by omega) (by omega)
            show o ++ scanAux step f r = o ++ scanAux step f' r
            rw [h2]

theorem reSub_nil {step : List Char → Option (List Char × List Char)} :
    reSub step [] = [] := rfl

theorem reSub_nomatch {step : List Char → Option (List Char × List Char)}
    {c : Char} {cs : List Char} (h : step (c :: cs) = none) :
    reSub step (c :: cs) = c :: reSub step cs := by
  unfold reSub
  simp only [List.length_cons, scanAux, h]

theorem reSub_match {step : List Char → Option (List Char × List Char)}
    (hstep : ∀ t o r, step t = some (o, r) → r.length < t.length)
    {c : Char} {cs o r : List Char} (h : step (c :: cs) = some (o, r)) :
    reSub step (c :: cs) = o ++ reSub step r := by
  unfold reSub
  simp only [List.length_cons, scanAux, h]
  congr 1
  have hr := hstep _ _ _ h
  simp only [List.length_cons] at hr
  exact scanAux_fuel_eq hstep cs.length cs.length r.length r (by omega) (by omega)
    (Nat.le_refl _)

/-- A scan with no match anywhere (at no suffix) is the identity. -/
theorem reSub_id {step : List Char → Option (List Char × List Char)}
    {s : List Char} (h : ∀ t, t <:+ s → step t = none) : reSub step s = s := by
  induction s with
  | nil => rfl
  | cons c cs ih =>
    rw [reSub_nomatch (h _ (List.suffix_refl _))]
    rw [ih fun t ht => h t (ht.trans (List.suffix_cons c cs))]

/-! ### Every matcher used by the source consumes input -/

theorem stepBlock_consume (tag : List Char) :
    ∀ t o r, stepBlock tag t = some (o, r) → r.length < t.length := by
  intro t o r h
  unfold stepBlock at h
  cases ho : openTag tag t with
  | none => rw [ho] at h; exact absurd h (by simp)
  | some m =>
    rw [ho] at h
    simp only [Option.some_bind] at h
    cases hs : splitAtCI (closeTag tag) m with
    | none => rw [hs] at h; exact absurd h (by simp)
    | some pr =>
      obtain ⟨a, b⟩ := pr
      rw [hs] at h
      simp only [Option.map_some', Option.some.injEq, Prod.mk.injEq] at h
      obtain ⟨rfl, rfl⟩ := h.symm
      have h1 := (openTag_spec ho).2
      have h2 := (splitAtCI_spec hs).1
      omega

theorem stepComment_consume :
    ∀ t o r, stepComment t = some (o, r) → r.length < t.length := by
  intro t o r h
  unfold stepComment at h
  cases ho : matchCI (str "<!--") t with
  | none => rw [ho] at h; exact absurd h (by simp)
  | some m =>
    rw [ho] at h
    simp only [Option.some_bind] at h
    cases hs : splitAtCI (str "-->") m with
    | none => rw [hs] at h; exact absurd h (by simp)
    | some pr =>
      obtain ⟨a, b⟩ := pr
      rw [hs] at h
      simp only [Option.map_some', Option.some.injEq, Prod.mk.injEq] at h
      obtain ⟨rfl, rfl⟩ := h.symm
      have h1 := matchCI_length ho
      have h2 := (splitAtCI_spec hs).1
      have hp : 0 < (str "<!--").length := by decide
      omega

theorem stepToken_consume (tag repl : List Char) :
    ∀ t o r, stepToken tag repl t = some (o, r) → r.length < t.length := by
  intro t o r h
  unfold stepToken at h
  cases ho : openTag tag t with
  | none => rw [ho] at h; exact absurd h (by simp)
  | some m =>
    rw [ho] at h
    simp only [Option.map_some', Option.some.injEq, Prod.mk.injEq] at h
    obtain ⟨rfl, rfl⟩ := h.symm
    exact (openTag_spec ho).2

theorem stepUnwrap_consume (tag : List Char) :
    ∀ t o r, stepUnwrap tag t = some (o, r) → r.length < t.length := by
  intro t o r h
  unfold stepUnwrap at h
  cases ho : openTag tag t with
  | none => rw [ho] at h; exact absurd h (by simp)
  | some m =>
    rw [ho] at h
    simp only [Option.some_bind] at h
    cases hs : splitAtCI (closeTag tag) m with
    | none => rw [hs] at h; exact absurd h (by simp)
    | some pr =>
      obtain ⟨a, b⟩ := pr
      rw [hs] at h
      simp only [Option.map_some', Option.some.injEq, Prod.mk.injEq] at h
      obtain ⟨rfl, rfl⟩ := h.symm
      have h1 := (openTag_spec ho).2
      have h2 := (splitAtCI_spec hs).1
      omega

theorem stepLit_consume (pat repl : List Char) (hpat : pat ≠ []) :
    ∀ t o r, stepLit pat repl t = some (o, r) → r.length < t.length := by
  intro t o r h
  unfold stepLit at h
  cases ho : matchCI pat t with
  | none => rw [ho] at h; exact absurd h (by simp)
  | some m =>
    rw [ho] at h
    simp only [Option.map_some', Option.some.injEq, Prod.mk.injEq] at h
    obtain ⟨rfl, rfl⟩ := h.symm
    have h1 := matchCI_length ho
    have h2 : 0 < pat.length := List.length_pos.mpr hpat
    omega

/-- Strong induction on list length, in the form used repeatedly below. -/
theorem strongLenInd {α : Type} {Q : List α → Prop}
    (h : ∀ s, (∀ t : List α, t.length < s.length → Q t) → Q s) : ∀ s, Q s := by
  have key : ∀ n, ∀ s : List α, s.length ≤ n → Q s := by
    intro n
    induction n with
    | zero =>
      intro s hs
      exact h s fun t ht => absurd (Nat.lt_of_lt_of_le ht hs) (Nat.not_lt_zero _)
    | succ n ih =>
      intro s hs
      exact h s fun t ht => ih t (by omega)
  intro s
  exact key s.length s (Nat.le_refl _)

theorem eatEmptyP_spec : ∀ s : List Char, ∀ r : List Char,
    eatEmptyP s = some r → r <:+ s ∧ r.length < s.length := by
  refine strongLenInd ?_
  intro s ih r h
  cases s with
  | nil =>
    rw [show eatEmptyP [] = none from rfl] at h
    exact absurd h (by simp)
  | cons c cs =>
    rw [eatEmptyP.eq_def] at h
    simp only at h
    split at h
    · obtain ⟨h1, h2⟩ := ih cs (by simp) r h
      exact ⟨h1.trans (List.suffix_cons c cs), Nat.lt_trans h2 (by simp)⟩
    · split at h
      · split at h
        · rename_i c1 c2 c3 c4 c5 rest
          split at h
          · have hlen : rest.length < (c1 :: c2 :: c3 :: c4 :: c5 :: rest).length + 1 := by
              simp only [List.length_cons]
              omega
            obtain ⟨h1, h2⟩ := ih rest (by simpa using hlen) r h
            refine ⟨?_, by simp only [List.length_cons] at h2 ⊢; omega⟩
            refine h1.trans ?_
            exact (List.suffix_cons c5 rest).trans ((List.suffix_cons c4 _).trans
              ((List.suffix_cons c3 _).trans ((List.suffix_cons c2 _).trans
                ((List.suffix_cons c1 _).trans (List.suffix_cons c _)))))
          · exact absurd h (by simp)
        · exact absurd h (by simp)
      · split at h
        · split at h
          · rename_i c1 c2 c3 rest
            split at h
            · simp only [Option.some.injEq] at h
              subst h
              refine ⟨?_, by simp only [List.length_cons]; omega⟩
              exact (List.suffix_cons c3 rest).trans ((List.suffix_cons c2 _).trans
                ((List.suffix_cons c1 _).trans (List.suffix_cons c _)))
            · exact absurd h (by simp)
          · exact absurd h (by simp)
        · exact absurd h (by simp)

theorem stepEmptyP_consume :
    ∀ t o r, stepEmptyP t = some (o, r) → r.length < t.length := by
  intro t o r h
  unfold stepEmptyP at h
  cases ho : openTag (str "p") t with
  | none => rw [ho] at h; exact absurd h (by simp)
  | some m =>
    rw [ho] at h
    simp only [Option.some_bind] at h
    cases he : eatEmptyP m with
    | none => rw [he] at h; exact absurd h (by simp)
    | some e =>
      rw [he] at h
      simp only [Option.map_some', Option.some.injEq, Prod.mk.injEq] at h
      obtain ⟨rfl, rfl⟩ := h.symm
      have h1 := (openTag_spec ho).2
      have h2 := (eatEmptyP_spec m e he).2
      omega

theorem stepAttrs_consume :
    ∀ t o r, stepAttrs t = some (o, r) → r.length < t.length := by
  intro t o r h
  unfold stepAttrs at h
  split at h
  · rename_i rest
    simp only at h
    split at h
    · exact absurd h (by simp)
    · cases hu : upToGt (rest.dropWhile isWordChar) with
      | none => rw [hu] at h; exact absurd h (by simp)
      | some after =>
        rw [hu] at h
        simp only [Option.map_some', Option.some.injEq, Prod.mk.injEq] at h
        obtain ⟨rfl, rfl⟩ := h.symm
        have h1 := (upToGt_spec hu).2
        have h2 : (rest.dropWhile isWordChar).length ≤ rest.length :=
          (List.dropWhile_sublist _).length_le
        simp only [List.length_cons]
        omega
  · exact absurd h (by simp)

/-- A whitespace run with at least one newline has a shorter tail after its
last newline. -/
theorem afterLastNL_lt {run : List Char} (h : 0 < nlCount run) :
    (afterLastNL run).length < run.length := by
  unfold afterLastNL
  rw [List.length_reverse]
  have hsub := List.takeWhile_sublist (l := run.reverse) (p := (· != '\n'))
  have hle := hsub.length_le
  rw [List.length_reverse] at hle
  rcases Nat.lt_or_ge (run.reverse.takeWhile (· != '\n')).length run.length with hlt | hge
  · exact hlt
  · exfalso
    have heq : (run.reverse.takeWhile (· != '\n')).length = run.reverse.length := by
      rw [List.length_reverse]; omega
    have htw := hsub.eq_of_length heq
    obtain ⟨x, hx, hxp⟩ := List.countP_pos_iff.mp h
    have hxr : x ∈ run.reverse := List.mem_reverse.mpr hx
    rw [← htw] at hxr
    have hne := List.mem_takeWhile_imp hxr
    simp only [bne_iff_ne, ne_eq] at hne
    simp only [beq_iff_eq] at hxp
    exact hne hxp

theorem stepBlank_consume :
    ∀ t o r, stepBlank t = some (o, r) → r.length < t.length := by
  intro t o r h
  unfold stepBlank at h
  split at h
  · rename_i ts
    simp only at h
    split at h
    · rename_i hcnt
      simp only [Option.some.injEq, Prod.mk.injEq] at h
      obtain ⟨rfl, rfl⟩ := h.symm
      have hsplit := List.takeWhile_append_dropWhile (l := '\n' :: ts) (p := isPyWS)
      have hlen : (('\n' :: ts).takeWhile isPyWS).length +
          (('\n' :: ts).dropWhile isPyWS).length = ('\n' :: ts).length := by
        rw [← List.length_append, hsplit]
      have hnl : 0 < nlCount (('\n' :: ts).takeWhile isPyWS) := by omega
      have := afterLastNL_lt hnl
      rw [List.length_append]
      omega
    · exact absurd h (by simp)
  · exact absurd h (by simp)

theorem claimStepBlank_consume :
    ∀ t o r, claimStepBlank t = some (o, r) → r.length < t.length := by
  intro t o r h
  unfold claimStepBlank at h
  split at h
  · rename_i ts
    simp only at h
    split at h
    · rename_i hcnt
      simp only [Option.some.injEq, Prod.mk.injEq] at h
      obtain ⟨rfl, rfl⟩ := h.symm
      have hsplit := List.takeWhile_append_dropWhile (l := '\n' :: ts) (p := isPyWS)
      have hlen : (('\n' :: ts).takeWhile isPyWS).length +
          (('\n' :: ts).dropWhile isPyWS).length = ('\n' :: ts).length := by
        rw [← List.length_append, hsplit]
      have hnl : 0 < nlCount (('\n' :: ts).takeWhile isPyWS) := by omega
      have := afterLastNL_lt hnl
      rw [List.length_append]
      omega
    · exact absurd h (by simp)
  · exact absurd h (by simp)

theorem stepHT_consume :
    ∀ t o r, stepHT t = some (o, r) → r.length < t.length := by
  intro t o r h
  unfold stepHT at h
  split at h
  · rename_i c cs
    split at h
    · simp only [Option.some.injEq, Prod.mk.injEq] at h
      obtain ⟨rfl, rfl⟩ := h.symm
      have : (cs.dropWhile isHT).length ≤ cs.length := (List.dropWhile_sublist _).length_le
      simp only [List.length_cons]
      omega
    · exact absurd h (by simp)
  · exact absurd h (by simp)

theorem stepSpaceNL_consume :
    ∀ t o r, stepSpaceNL t = some (o, r) → r.length < t.length := by
  intro t o r h
  unfold stepSpaceNL at h
  split at h
  · rename_i cs
    split at h
    · rename_i rest heq
      simp only [Option.some.injEq, Prod.mk.injEq] at h
      obtain ⟨rfl, rfl⟩ := h.symm
      have hlen : (cs.dropWhile (· == ' ')).length ≤ cs.length :=
        (List.dropWhile_sublist _).length_le
      rw [heq] at hlen
      simp only [List.length_cons] at hlen ⊢
      omega
    · exact absurd h (by simp)
  · exact absurd h (by simp)

theorem normalizeWS_nil : normalizeWS [] = [] := rfl

/-- Cleaning the empty string yields the empty string, whatever the options:
every scanning rule maps `[]` to `[]`, and so does the normalization. -/
theorem clean_empty_eq_nil (o : CleaningOptions) :
    clean_html_content (some []) o = [] := by
  simp only [clean_html_content, applyIf, reSub_nil, normalizeWS_nil, ite_self]

/-- When `<tag[^>]*>` matches nowhere in `s`, it matches at no suffix. -/
theorem hasOpenTag_false {tag s : List Char} (h : hasOpenTag tag s = false) :
    ∀ t, t <:+ s → openTag tag t = none := by
  induction s with
  | nil =>
    intro t ht
    rw [List.suffix_nil.mp ht]
    rfl
  | cons c cs ih =>
    simp only [hasOpenTag, Bool.or_eq_false_iff] at h
    obtain ⟨h1, h2⟩ := h
    intro t ht
    obtain ⟨u, hu⟩ := ht
    cases u with
    | nil =>
      simp only [List.nil_append] at hu
      subst hu
      cases ho : openTag tag (c :: cs) with
      | none => rfl
      | some m => rw [ho] at h1; simp at h1
    | cons a u =>
      simp only [List.cons_append, List.cons.injEq] at hu
      exact ih h2 t ⟨u, hu.2⟩

/-! ### Claim theorems and counterexamples (part one) -/

set_option maxRecDepth 8000 in
/-- C1: on the input
`"<h2>Title</h2><p>&nbsp;</p><p>Hello <strong>world</strong></p>"` with the
default options (h2 on, empty-p on, all-p off, strong on, nbsp on,
whitespace on, and the remaining defaults), the sanitizer returns exactly
`"<p>Hello world</p>"`. -/
theorem claim1_example_default_options :
    clean_html_content
      (some (str "<h2>Title</h2><p>&nbsp;</p><p>Hello <strong>world</strong></p>"))
      defaultOptions = str "<p>Hello world</p>" := by
  decide

/-- C2: for every input and options record, setting both `remove_all_p` and
`remove_empty_p` behaves exactly like `remove_all_p` alone: the
empty-paragraph pass is guarded by `remove_empty_p and not remove_all_p`
(line 109), so `remove_all_p` disables it. -/
theorem claim2_mutual_exclusion (t : Option (List Char)) (o : CleaningOptions) :
    clean_html_content t { o with remove_all_p := true, remove_empty_p := true } =
      clean_html_content t { o with remove_all_p := true, remove_empty_p := false } := by
  cases t <;> rfl

/-- C5: a null or non-string value sanitizes to the empty string for every
options record, with no error (lines 54-55). -/
theorem claim5_null_returns_empty (o : CleaningOptions) :
    clean_html_content none o = [] := rfl

/-- C10: with all sixteen cleaning flags disabled, the sanitizer is the
identity on string values — every pass is skipped, and no trimming happens
because the trim lives inside the disabled normalization pass. -/
theorem claim10_all_flags_off_identity (t : List Char) :
    clean_html_content (some t) allOffOptions = t := rfl

/-- C9: the batch step produces exactly one cleaned value per input row, in
input order (the cleaned column is a `map` over the rows, line 179), and the
reported row count is the input row count (line 198), rows with empty output
included. -/
theorem claim9_batch_shape (rows : List (Option (List Char))) (o : CleaningOptions) :
    (cleaned_column rows o).length = rows.length ∧
    rows_processed rows = rows.length ∧
    ∀ (i : Nat) (h : i < rows.length),
      (cleaned_column rows o).get ⟨i, by simpa [cleaned_column] using h⟩ =
        clean_html_content (rows.get ⟨i, h⟩) o := by
  refine ⟨by simp [cleaned_column], rfl, ?_⟩
  intro i h
  simp only [cleaned_column, List.get_eq_getElem, List.getElem_map]

/-- Witness for C9 at a concrete one-row input. -/
theorem claim9_witness :
    (cleaned_column [none] defaultOptions).length =
      ([none] : List (Option (List Char))).length ∧
    rows_processed [none] = ([none] : List (Option (List Char))).length ∧
    (cleaned_column [none] defaultOptions).get ⟨0, by decide⟩ =
      clean_html_content (([none] : List (Option (List Char))).get ⟨0, by decide⟩)
        defaultOptions := by
  obtain ⟨h1, h2, h3⟩ := claim9_batch_shape [none] defaultOptions
  exact ⟨h1, h2, h3 0 (by decide)⟩

/-- C3 counterexample: on a column whose single row is the empty string,
every `originalLength` is 0, so the mean has no terms; the code then reports
pandas NaN (modelled `none`), not the claimed value 0. -/
theorem claim3_counterexample :
    avg_reduction [some []] defaultOptions = none ∧ (none : Option ℚ) ≠ some 0 := by
  exact ⟨rfl, by simp⟩

/-- C3 amended: `avg_reduction` is the mean of
`(originalLength - cleanedLength) / originalLength * 100` over exactly the
rows whose `originalLength` is nonzero — zero-length rows contribute no term
and no division error is raised — but when every row has `originalLength` 0
the reported average is NaN (pandas `mean` of an all-NaN series, `none`
here), not 0. -/
theorem claim3_avg_reduction_amended (rows : List (Option (List Char)))
    (o : CleaningOptions) :
    avg_reduction rows o =
      (let nz := rows.filter fun v => !((astype_str v).length == 0)
       let terms := nz.map fun v =>
         (((astype_str v).length : ℚ) - ((clean_html_content v o).length : ℚ)) /
           ((astype_str v).length : ℚ) * 100
       if nz.isEmpty then none else some (terms.sum / (terms.length : ℚ))) := by
  have kz : List.zipWith reduction_term (original_lengths rows)
      (cleaned_lengths rows o) =
      rows.map fun v =>
        reduction_term (astype_str v).length (clean_html_content v o).length := by
    induction rows with
    | nil => rfl
    | cons v rs ih =>
      simp only [original_lengths, cleaned_lengths, cleaned_column, List.map_cons,
        List.zipWith_cons_cons] at ih ⊢
      rw [ih]
  have key : ∀ L : List (Option (List Char)),
      (L.map fun v =>
        reduction_term (astype_str v).length (clean_html_content v o).length).filterMap
          id =
      (L.filter fun v => !((astype_str v).length == 0)).map fun v =>
        (((astype_str v).length : ℚ) - ((clean_html_content v o).length : ℚ)) /
          ((astype_str v).length : ℚ) * 100 := by
    intro L
    induction L with
    | nil => rfl
    | cons v rs ih =>
      simp only [List.map_cons, List.filterMap_cons, List.filter_cons, id_eq]
      by_cases hz : (astype_str v).length = 0
      · rw [show reduction_term (astype_str v).length
            (clean_html_content v o).length = none from by simp [reduction_term, hz]]
        rw [show (!((astype_str v).length == 0)) = false from by simp [hz]]
        exact ih
      · rw [show reduction_term (astype_str v).length
            (clean_html_content v o).length =
            some ((((astype_str v).length : ℚ) -
              ((clean_html_content v o).length : ℚ)) /
                ((astype_str v).length : ℚ) * 100) from by simp [reduction_term, hz]]
        rw [show (!((astype_str v).length == 0)) = true from by simp [hz]]
        exact congrArg₂ List.cons rfl ih
  have hmap : ∀ (L : List (Option (List Char)))
      (f : Option (List Char) → ℚ), (L.map f).isEmpty = L.isEmpty := by
    intro L f
    cases L <;> rfl
  unfold avg_reduction seriesMean
  simp only [kz, key, hmap]

/-- C4 counterexample: a null row does not get `originalLength` 0: pandas
`astype(str)` renders a missing value as the string `"nan"`, so the recorded
length is 3. -/
theorem claim4_counterexample :
    original_lengths [none] = [3] ∧ (3 : Nat) ≠ 0 := by
  exact ⟨rfl, by decide⟩

/-- C4 amended: `originalLength` is the character count of the value coerced
to text by `astype(str)`, under which a string renders as itself and a
null/absent value renders as the three-character string `"nan"` (so a null
row has `originalLength` 3, not 0). -/
theorem claim4_original_length_amended (rows : List (Option (List Char)))
    (i : Nat) (h : i < rows.length) :
    (original_lengths rows).get ⟨i, by simpa [original_lengths] using h⟩ =
      (astype_str (rows.get ⟨i, h⟩)).length ∧
    astype_str none = str "nan" := by
  refine ⟨?_, rfl⟩
  simp only [original_lengths, List.get_eq_getElem, List.getElem_map]

/-- Witness for C4's amended theorem at a concrete one-row input. -/
theorem claim4_witness :
    (original_lengths [none]).get ⟨0, by decide⟩ =
      (astype_str (([none] : List (Option (List Char))).get ⟨0, by decide⟩)).length ∧
    astype_str none = str "nan" :=
  claim4_original_length_amended [none] 0 (by decide)

/-- C6 counterexample: `"a\n\n\nb"` holds a run of exactly two blank lines
(three newlines).  Under the claim's sub-rule ("runs of fewer than 3 blank
lines are not collapsed", modelled by `claimNormalizeWS`) the text is
unchanged; the code's normalization does collapse it to one blank line. -/
theorem claim6_counterexample :
    claimNormalizeWS (str "a\n\n\nb") = str "a\n\n\nb" ∧
    normalizeWS (str "a\n\n\nb") = str "a\n\nb" ∧
    str "a\n\nb" ≠ str "a\n\n\nb" := by
  refine ⟨by decide, by decide, by decide⟩

/-- C8 counterexample: an unmatched opening tag is not always left untouched
in the output: under default options the attribute-stripping rule rewrites
the unpaired `<a href="x">` to `<a>`. -/
theorem claim8_counterexample :
    clean_html_content (some (str "<a href=\"x\">")) defaultOptions = str "<a>" ∧
    str "<a>" ≠ str "<a href=\"x\">" := by
  refine ⟨by decide, by decide⟩

/-- C8 amended: the sanitizer is a total function (it never raises — every
rule is modelled by a total scan), and each pair-based rule on its own
leaves the text unchanged when it has no pairing tag: a block-removal or
unwrap rule for `tag` is the identity when the closing tag `</tag>` occurs
nowhere (unmatched opening tags), and likewise when no opening tag
`<tag[^>]*>` matches anywhere (unmatched closing tags).  Other enabled
rules, such as attribute stripping, may still rewrite such a tag. -/
theorem claim8_unmatched_tags_amended (tag s : List Char) :
    (splitAtCI (closeTag tag) s = none →
      reSub (stepBlock tag) s = s ∧ reSub (stepUnwrap tag) s = s) ∧
    (hasOpenTag tag s = false →
      reSub (stepBlock tag) s = s ∧ reSub (stepUnwrap tag) s = s) := by
  constructor
  · intro h
    have hb : ∀ t, t <:+ s → stepBlock tag t = none := by
      intro t ht
      unfold stepBlock
      cases ho : openTag tag t with
      | none => rfl
      | some m =>
        have hm : m <:+ s := (openTag_spec ho).1.trans ht
        simp only [Option.some_bind]
        rw [splitAtCI_none_suffix h hm]
        rfl
    have hu : ∀ t, t <:+ s → stepUnwrap tag t = none := by
      intro t ht
      unfold stepUnwrap
      cases ho : openTag tag t with
      | none => rfl
      | some m =>
        have hm : m <:+ s := (openTag_spec ho).1.trans ht
        simp only [Option.some_bind]
        rw [splitAtCI_none_suffix h hm]
        rfl
    exact ⟨reSub_id hb, reSub_id hu⟩
  · intro h
    have hopen := hasOpenTag_false h
    have hb : ∀ t, t <:+ s → stepBlock tag t = none := by
      intro t ht
      unfold stepBlock
      rw [hopen t ht]
      rfl
    have hu : ∀ t, t <:+ s → stepUnwrap tag t = none := by
      intro t ht
      unfold stepUnwrap
      rw [hopen t ht]
      rfl
    exact ⟨reSub_id hb, reSub_id hu⟩

/-- Witness for C8's amended theorem: an unmatched `<script …` opening tag
survives the script rule, and an unmatched `</a>` closing tag survives the
link-unwrap rule. -/
theorem claim8_witness :
    reSub (stepBlock (str "script")) (str "<script a") = str "<script a" ∧
    reSub (stepUnwrap (str "a")) (str "</a> x") = str "</a> x" := by
  constructor
  · exact ((claim8_unmatched_tags_amended (str "script") (str "<script a")).1
      (by decide)).1
  · exact ((claim8_unmatched_tags_amended (str "a") (str "</a> x")).2
      (by decide)).2

/-! ### Run-level reading of the three normalization passes

The scanner form of each normalization pass is proved equal to its
run-level (`runMap`) form; the three equalities combine into the amended
claim C6, and the run-level forms carry the idempotence proof for C7. -/

theorem runMap_nil (p : Char → Bool) (f : List Char → Option Char → List Char) :
    runMap p f [] = [] := by
  rw [runMap.eq_def]

theorem runMap_cons_pos {p : Char → Bool} {f : List Char → Option Char → List Char}
    {c : Char} {cs : List Char} (h : p c) :
    runMap p f (c :: cs) =
      f ((c :: cs).takeWhile p) ((c :: cs).dropWhile p).head? ++
        runMap p f ((c :: cs).dropWhile p) := by
  rw [runMap.eq_def]
  simp [h]

theorem runMap_cons_neg {p : Char → Bool} {f : List Char → Option Char → List Char}
    {c : Char} {cs : List Char} (h : ¬ p c) :
    runMap p f (c :: cs) = c :: runMap p f cs := by
  rw [runMap.eq_def]
  simp [h]

/-- Unfold `runMap` at a string beginning with a nonempty `p`-run. -/
theorem runMap_head_run {p : Char → Bool} {f : List Char → Option Char → List Char}
    {cs : List Char} (h : cs.takeWhile p ≠ []) :
    runMap p f cs = f (cs.takeWhile p) ((cs.dropWhile p).head?) ++
      runMap p f (cs.dropWhile p) := by
  cases cs with
  | nil => simp at h
  | cons a as =>
    by_cases ha : p a
    · exact runMap_cons_pos ha
    · rw [List.takeWhile_cons_of_neg ha] at h
      exact absurd rfl h

/-- A `takeWhile` over an append stops inside the left part as soon as some
element of the left part fails the predicate. -/
theorem takeWhile_append_of_exists {p : Char → Bool} {xs ys : List Char}
    (h : ∃ x ∈ xs, p x = false) :
    (xs ++ ys).takeWhile p = xs.takeWhile p := by
  induction xs with
  | nil => simp at h
  | cons a l ih =>
    by_cases ha : p a
    · rw [List.cons_append, List.takeWhile_cons_of_pos ha,
        List.takeWhile_cons_of_pos ha]
      obtain ⟨x, hx, hxp⟩ := h
      rcases List.mem_cons.mp hx with rfl | hx'
      · rw [ha] at hxp; exact absurd hxp (by simp)
      · rw [ih ⟨x, hx', hxp⟩]
    · rw [List.cons_append, List.takeWhile_cons_of_neg ha,
        List.takeWhile_cons_of_neg ha]

theorem nlCount_nil : nlCount [] = 0 := rfl

theorem nlCount_cons (a : Char) (l : List Char) :
    nlCount (a :: l) = (if a == '\n' then 1 else 0) + nlCount l := by
  unfold nlCount
  rw [List.countP_cons]
  by_cases ha : a == '\n' <;> simp [ha] <;> omega

theorem nlCount_append (l1 l2 : List Char) :
    nlCount (l1 ++ l2) = nlCount l1 + nlCount l2 := by
  unfold nlCount
  exact List.countP_append _ _ _

/-- `beforeFirstNL` on a cons whose head is not a newline. -/
theorem beforeFirstNL_cons_ne {c : Char} {l : List Char} (h : c ≠ '\n') :
    beforeFirstNL (c :: l) = c :: beforeFirstNL l := by
  unfold beforeFirstNL
  rw [List.takeWhile_cons_of_pos (by simp [h])]

/-- `beforeFirstNL` on a cons headed by a newline. -/
theorem beforeFirstNL_cons_nl (l : List Char) :
    beforeFirstNL ('\n' :: l) = [] := by
  unfold beforeFirstNL
  rw [List.takeWhile_cons_of_neg (by simp)]

/-- Prepending a non-newline character does not change the part after the
last newline, provided a newline exists. -/
theorem afterLastNL_cons_ne {c : Char} {l : List Char} (hc : c ≠ '\n')
    (h : 0 < nlCount l) : afterLastNL (c :: l) = afterLastNL l := by
  unfold afterLastNL
  rw [List.reverse_cons]
  rw [takeWhile_append_of_exists ?hex]
  case hex =>
    obtain ⟨x, hx, hxp⟩ := List.countP_pos_iff.mp h
    exact ⟨x, List.mem_reverse.mpr hx, by simp only [beq_iff_eq] at hxp; simp [hxp]⟩

/-- `stepBlank` never fires at a character other than a newline. -/
theorem stepBlank_cons_ne {a : Char} {rest : List Char} (h : a ≠ '\n') :
    stepBlank (a :: rest) = none := by
  rw [stepBlank.eq_def]
  split
  · rename_i ts heq
    exact absurd (List.cons.injEq _ _ _ _ ▸ heq :) (by simp [h])
  · rfl

theorem reSub_stepHT_eq : ∀ s, reSub stepHT s = collapseHorizRuns s := by
  refine strongLenInd ?_
  intro s ih
  cases s with
  | nil =>
    rw [reSub_nil]
    unfold collapseHorizRuns
    rw [runMap_nil]
  | cons c cs =>
    by_cases hc : isHT c
    · have hstep : stepHT (c :: cs) = some ([' '], cs.dropWhile isHT) := by
        unfold stepHT
        simp [hc]
      rw [reSub_match stepHT_consume hstep]
      rw [ih (cs.dropWhile isHT) (by
        have := (List.dropWhile_sublist (p := isHT) (l := cs)).length_le
        simp only [List.length_cons]
        omega)]
      unfold collapseHorizRuns
      rw [runMap_cons_pos hc]
      rw [List.dropWhile_cons_of_pos hc]
    · have hstep : stepHT (c :: cs) = none := by
        unfold stepHT
        simp [hc]
      rw [reSub_nomatch hstep]
      rw [ih cs (by simp)]
      unfold collapseHorizRuns
      rw [runMap_cons_neg hc]

/-- `stepSpaceNL` never fires at a character other than a space. -/
theorem stepSpaceNL_cons_ne {a : Char} {rest : List Char} (h : a ≠ ' ') :
    stepSpaceNL (a :: rest) = none := by
  rw [stepSpaceNL.eq_def]
  split
  · rename_i ts heq
    exact absurd (List.cons.injEq _ _ _ _ ▸ heq :) (by simp [h])
  · rfl

/-- A string of spaces only is untouched by the space-before-newline rule. -/
theorem dropSpacesBeforeNL_all_spaces {cs : List Char}
    (h : cs.dropWhile (· == ' ') = []) : dropSpacesBeforeNL cs = cs := by
  cases cs with
  | nil =>
    unfold dropSpacesBeforeNL
    rw [runMap_nil]
  | cons a as =>
    have ha : ((fun x => x == ' ') a) = true := by
      by_contra hna
      rw [List.dropWhile_cons_of_neg (by simpa using hna)] at h
      exact absurd h (by simp)
    unfold dropSpacesBeforeNL
    rw [runMap_cons_pos (p := (· == ' ')) ha]
    rw [List.dropWhile_cons_of_pos (p := (· == ' ')) ha] at h
    rw [List.dropWhile_cons_of_pos (p := (· == ' ')) ha, h, runMap_nil,
      List.append_nil]
    have htw : as.takeWhile (· == ' ') = as := by
      rw [← List.append_nil (as.takeWhile (· == ' ')), ← h,
        List.takeWhile_append_dropWhile]
    rw [List.takeWhile_cons_of_pos (p := (· == ' ')) ha, htw]
    rfl

theorem reSub_stepSpaceNL_eq : ∀ s, reSub stepSpaceNL s = dropSpacesBeforeNL s := by
  refine strongLenInd ?_
  intro s ih
  cases s with
  | nil =>
    rw [reSub_nil]
    unfold dropSpacesBeforeNL
    rw [runMap_nil]
  | cons c cs =>
    by_cases hc : c = ' '
    · subst hc
      cases hd : cs.dropWhile (· == ' ') with
      | nil =>
        -- the space run reaches the end of the string: no newline follows
        have hstep : stepSpaceNL (' ' :: cs) = none := by
          rw [stepSpaceNL.eq_def]
          simp [hd]
        rw [reSub_nomatch hstep]
        rw [ih cs (by simp)]
        rw [dropSpacesBeforeNL_all_spaces hd]
        have htw : cs.takeWhile (· == ' ') = cs := by
          rw [← List.append_nil (cs.takeWhile (· == ' ')), ← hd,
            List.takeWhile_append_dropWhile]
        unfold dropSpacesBeforeNL
        rw [runMap_cons_pos (p := (· == ' ')) (by decide)]
        rw [List.dropWhile_cons_of_pos (p := (· == ' ')) (by decide), hd,
          runMap_nil, List.append_nil]
        rw [List.takeWhile_cons_of_pos (p := (· == ' ')) (by decide), htw]
        rfl
      | cons d ds =>
        have hlds : (d :: ds).length ≤ cs.length := by
          have := (List.dropWhile_sublist (p := (· == ' ')) (l := cs)).length_le
          rw [hd] at this
          exact this
        by_cases hdn : d = '\n'
        · subst hdn
          have hstep : stepSpaceNL (' ' :: cs) = some (['\n'], ds) := by
            rw [stepSpaceNL.eq_def]
            simp [hd]
          rw [reSub_match stepSpaceNL_consume hstep]
          rw [ih ds (by simp only [List.length_cons] at hlds ⊢; omega)]
          unfold dropSpacesBeforeNL
          rw [runMap_cons_pos (p := (· == ' ')) (by decide)]
          rw [List.dropWhile_cons_of_pos (p := (· == ' ')) (by decide), hd]
          rw [runMap_cons_neg (p := (· == ' ')) (by decide)]
          rfl
        · have hstep : stepSpaceNL (' ' :: cs) = none := by
            rw [stepSpaceNL.eq_def]
            simp only [hd]
            split
            · rename_i ts heq
              exact absurd (List.cons.injEq _ _ _ _ ▸ heq :) (by simp [hdn])
            · rfl
          rw [reSub_nomatch hstep]
          rw [ih cs (by simp)]
          unfold dropSpacesBeforeNL
          rw [runMap_cons_pos (p := (· == ' ')) (by decide)]
          rw [List.dropWhile_cons_of_pos (p := (· == ' ')) (by decide), hd]
          rw [List.takeWhile_cons_of_pos (p := (· == ' ')) (by decide)]
          -- reduce the run transform: the next character is not a newline
          have hkeep : ∀ run : List Char,
              (if ((d :: ds).head? == some '\n') then [] else run) = run := by
            intro run
            rw [if_neg]
            simp [hdn]
          by_cases htw : cs.takeWhile (· == ' ') = []
          · have hdw : cs.dropWhile (· == ' ') = cs := by
              cases cs with
              | nil => rfl
              | cons a as =>
                by_cases hpa : ((fun x => x == ' ') a) = true
                · rw [List.takeWhile_cons_of_pos (p := (· == ' ')) hpa] at htw
                  exact absurd htw (by simp)
                · exact List.dropWhile_cons_of_neg (p := (· == ' '))
                    (by simpa using hpa)
            rw [htw]
            rw [hdw] at hd
            rw [hd]
            simp [hkeep, hdn]
          · rw [runMap_head_run htw, hd]
            simp [hkeep, hdn]
    · have hstep : stepSpaceNL (c :: cs) = none := stepSpaceNL_cons_ne hc
      rw [reSub_nomatch hstep]
      rw [ih cs (by simp)]
      unfold dropSpacesBeforeNL
      rw [runMap_cons_neg (p := (· == ' ')) (by simpa using hc)]

/-- When the leading `p`-run is empty, `dropWhile` keeps the list intact. -/
theorem dropWhile_eq_self_of_takeWhile_nil {p : Char → Bool} {cs : List Char}
    (h : cs.takeWhile p = []) : cs.dropWhile p = cs := by
  cases cs with
  | nil => rfl
  | cons a as =>
    by_cases hpa : p a
    · rw [List.takeWhile_cons_of_pos hpa] at h
      exact absurd h (by simp)
    · exact List.dropWhile_cons_of_neg hpa

theorem collapseBlankRuns_cons_ws {c : Char} {cs : List Char} (h : isPyWS c) :
    collapseBlankRuns (c :: cs) =
      collapseRun ((c :: cs).takeWhile isPyWS) ++
        collapseBlankRuns ((c :: cs).dropWhile isPyWS) := by
  unfold collapseBlankRuns
  rw [runMap_cons_pos h]

theorem collapseBlankRuns_cons_neg {c : Char} {cs : List Char} (h : ¬ isPyWS c) :
    collapseBlankRuns (c :: cs) = c :: collapseBlankRuns cs := by
  unfold collapseBlankRuns
  rw [runMap_cons_neg h]

theorem collapseBlankRuns_head_run {cs : List Char} (h : cs.takeWhile isPyWS ≠ []) :
    collapseBlankRuns cs =
      collapseRun (cs.takeWhile isPyWS) ++
        collapseBlankRuns (cs.dropWhile isPyWS) := by
  unfold collapseBlankRuns
  rw [runMap_head_run h]

/-- The blank-line matcher walks through whitespace that contains no
newline. -/
theorem reSub_stepBlank_walk : ∀ w t : List Char,
    (∀ x ∈ w, isPyWS x ∧ x ≠ '\n') →
    reSub stepBlank (w ++ t) = w ++ reSub stepBlank t := by
  intro w
  induction w with
  | nil => intro t _; rfl
  | cons a w ih =>
    intro t hw
    have ha := hw a (List.mem_cons_self a w)
    rw [List.cons_append]
    rw [reSub_nomatch (stepBlank_cons_ne ha.2)]
    rw [ih t fun x hx => hw x (List.mem_cons_of_mem a hx)]
    rfl

theorem reSub_stepBlank_eq : ∀ s, reSub stepBlank s = collapseBlankRuns s := by
  refine strongLenInd ?_
  intro s ih
  cases s with
  | nil =>
    rw [reSub_nil]
    unfold collapseBlankRuns
    rw [runMap_nil]
  | cons c cs =>
    by_cases hc : isPyWS c
    · by_cases hcn : c = '\n'
      · subst hcn
        have htk : ('\n' :: cs).takeWhile isPyWS = '\n' :: cs.takeWhile isPyWS :=
          List.takeWhile_cons_of_pos (by decide)
        have hnl : nlCount (('\n' :: cs).takeWhile isPyWS) =
            1 + nlCount (cs.takeWhile isPyWS) := by
          rw [htk, nlCount_cons]
          simp
        by_cases h3 : 3 ≤ nlCount (('\n' :: cs).takeWhile isPyWS)
        · -- the matcher fires: the run holds at least three newlines
          have hstep : stepBlank ('\n' :: cs) = some (str "\n\n",
              afterLastNL (('\n' :: cs).takeWhile isPyWS) ++
                ('\n' :: cs).dropWhile isPyWS) := by
            rw [stepBlank.eq_def]
            simp [h3]
          rw [reSub_match stepBlank_consume hstep]
          have haft : ∀ x ∈ afterLastNL (('\n' :: cs).takeWhile isPyWS),
              isPyWS x ∧ x ≠ '\n' := by
            intro x hx
            unfold afterLastNL at hx
            rw [List.mem_reverse] at hx
            constructor
            · have hx2 : x ∈ (('\n' :: cs).takeWhile isPyWS).reverse :=
                List.takeWhile_subset _ hx
              rw [List.mem_reverse] at hx2
              exact List.mem_takeWhile_imp hx2
            · have := List.mem_takeWhile_imp hx
              simpa using this
          rw [reSub_stepBlank_walk _ _ haft]
          have hsplit : (('\n' :: cs).takeWhile isPyWS).length +
              (('\n' :: cs).dropWhile isPyWS).length = ('\n' :: cs).length := by
            rw [← List.length_append, List.takeWhile_append_dropWhile]
          have hdlen : (('\n' :: cs).dropWhile isPyWS).length < ('\n' :: cs).length := by
            rw [htk] at hsplit
            simp only [List.length_cons] at hsplit ⊢
            omega
          rw [ih (('\n' :: cs).dropWhile isPyWS) hdlen]
          rw [collapseBlankRuns_cons_ws (by decide)]
          have hbf : beforeFirstNL (('\n' :: cs).takeWhile isPyWS) = [] := by
            rw [htk]
            exact beforeFirstNL_cons_nl _
          unfold collapseRun
          rw [if_pos h3, hbf]
          rw [show str "\n\n" = ['\n', '\n'] from rfl]
          simp [List.append_assoc]
        · -- fewer than three newlines in the run: no match at the newline
          have hstep : stepBlank ('\n' :: cs) = none := by
            rw [stepBlank.eq_def]
            simp [h3]
          rw [reSub_nomatch hstep]
          rw [ih cs (by simp)]
          rw [collapseBlankRuns_cons_ws (by decide)]
          have hcr : collapseRun (('\n' :: cs).takeWhile isPyWS) =
              ('\n' :: cs).takeWhile isPyWS := by
            unfold collapseRun
            rw [if_neg h3]
          rw [hcr, htk, List.dropWhile_cons_of_pos (p := isPyWS) (by decide),
            List.cons_append]
          refine congrArg (List.cons '\n') ?_
          by_cases htw : cs.takeWhile isPyWS = []
          · rw [htw, dropWhile_eq_self_of_takeWhile_nil htw]
            simp
          · rw [collapseBlankRuns_head_run htw]
            have hcr2 : collapseRun (cs.takeWhile isPyWS) = cs.takeWhile isPyWS := by
              unfold collapseRun
              rw [if_neg (by omega)]
            rw [hcr2]
      · -- whitespace other than a newline: passes through the matcher
        rw [reSub_nomatch (stepBlank_cons_ne hcn)]
        rw [ih cs (by simp)]
        rw [collapseBlankRuns_cons_ws hc]
        have htk : (c :: cs).takeWhile isPyWS = c :: cs.takeWhile isPyWS :=
          List.takeWhile_cons_of_pos hc
        rw [htk, List.dropWhile_cons_of_pos hc]
        by_cases htw : cs.takeWhile isPyWS = []
        · have hdw := dropWhile_eq_self_of_takeWhile_nil htw
          rw [htw, hdw]
          have hone : collapseRun [c] = [c] := by
            unfold collapseRun
            rw [if_neg (by simp [nlCount_cons, nlCount_nil, hcn])]
          rw [hone]
          simp
        · rw [collapseBlankRuns_head_run htw]
          by_cases h3 : 3 ≤ nlCount (cs.takeWhile isPyWS)
          · have hnlc : 3 ≤ nlCount (c :: cs.takeWhile isPyWS) := by
              rw [nlCount_cons]
              omega
            have h0 : 0 < nlCount (cs.takeWhile isPyWS) := by omega
            unfold collapseRun
            rw [if_pos hnlc, if_pos h3]
            rw [beforeFirstNL_cons_ne hcn, afterLastNL_cons_ne hcn h0]
            simp [List.append_assoc]
          · have hnlc : ¬ 3 ≤ nlCount (c :: cs.takeWhile isPyWS) := by
              have hceq : (if (c == '\n') then 1 else 0) = 0 := by simp [hcn]
              rw [nlCount_cons, hceq]
              omega
            unfold collapseRun
            rw [if_neg hnlc, if_neg h3]
            simp
    · have hcn : c ≠ '\n' := fun hF => hc (by rw [hF]; rfl)
      rw [reSub_nomatch (stepBlank_cons_ne hcn)]
      rw [ih cs (by simp)]
      rw [collapseBlankRuns_cons_neg hc]

/-- C6 amended: the whitespace-normalization step equals, in run-level
vocabulary — collapse every whitespace run holding 3 or more newlines
(2 or more blank lines) down to one blank line, turn every maximal
horizontal-whitespace run into one space, delete space runs immediately
before a newline, and trim the ends — applied in that order. -/
theorem claim6_normalization_amended (s : List Char) :
    normalizeWS s =
      pyStrip (dropSpacesBeforeNL (collapseHorizRuns (collapseBlankRuns s))) := by
  unfold normalizeWS
  rw [reSub_stepBlank_eq, reSub_stepHT_eq, reSub_stepSpaceNL_eq]

/-! ### Idempotence of the normalization (claim C7): infrastructure

The proof works on the run-level forms.  Normal forms are characterized by
the absence of bad infixes: no whitespace infix with three or more newlines
(for the blank-line pass), no tab and no double space (for the
horizontal-whitespace pass), no space before a newline (for the third pass),
and non-whitespace ends (for the trim).  Each pass establishes its own
property; the later passes and the trim preserve the earlier ones. -/

theorem prefix_append_cases {α : Type} {v a b : List α} (h : v <+: a ++ b) :
    v <+: a ∨ ∃ v2, v = a ++ v2 ∧ v2 <+: b := by
  induction a generalizing v with
  | nil =>
    right
    exact ⟨v, by simp, by simpa using h⟩
  | cons x a ih =>
    rw [List.cons_append] at h
    rcases List.prefix_cons_iff.mp h with rfl | ⟨t, rfl, ht⟩
    · left
      exact List.nil_prefix
    · rcases ih ht with h1 | ⟨v2, rfl, h2⟩
      · left
        exact List.cons_prefix_cons.mpr ⟨rfl, h1⟩
      · right
        exact ⟨v2, by simp, h2⟩

theorem infix_append_cases {α : Type} {v a b : List α} (h : v <:+: a ++ b) :
    v <:+: a ∨ v <:+: b ∨
      ∃ v1 v2, v = v1 ++ v2 ∧ v1 ≠ [] ∧ v2 ≠ [] ∧ v1 <:+ a ∧ v2 <+: b := by
  induction a generalizing v with
  | nil =>
    right
    left
    simpa using h
  | cons x a ih =>
    rw [List.cons_append] at h
    rcases List.infix_cons_iff.mp h with hpre | hinf
    · rcases List.prefix_cons_iff.mp hpre with rfl | ⟨t, rfl, ht⟩
      · left
        exact List.nil_infix
      · rcases prefix_append_cases ht with h1 | ⟨v2, rfl, h2⟩
        · left
          exact (List.cons_prefix_cons.mpr ⟨rfl, h1⟩).isInfix
        · by_cases hv2 : v2 = []
          · subst hv2
            left
            simpa using (List.prefix_refl (x :: a)).isInfix
          · right
            right
            exact ⟨x :: a, v2, by simp, by simp, hv2,
              List.suffix_refl _, h2⟩
    · rcases ih hinf with h1 | h2 | ⟨v1, v2, rfl, hv1, hv2, hs, hp⟩
      · left
        exact List.infix_cons h1
      · right
        left
        exact h2
      · right
        right
        exact ⟨v1, v2, rfl, hv1, hv2, hs.trans (List.suffix_cons x a), hp⟩

theorem dropWhile_head_false {p : Char → Bool} :
    ∀ {cs : List Char} {d : Char} {ds : List Char},
      cs.dropWhile p = d :: ds → p d = false := by
  intro cs
  induction cs with
  | nil => intro d ds h; simp at h
  | cons a as ih =>
    intro d ds h
    by_cases hpa : p a
    · rw [List.dropWhile_cons_of_pos hpa] at h
      exact ih h
    · rw [List.dropWhile_cons_of_neg hpa] at h
      cases h
      simpa using hpa

/-- The remainder after `dropWhile` starts with no `p`-run. -/
theorem takeWhile_dropWhile_nil (p : Char → Bool) (l : List Char) :
    (l.dropWhile p).takeWhile p = [] := by
  cases hd : l.dropWhile p with
  | nil => rfl
  | cons d ds =>
    rw [List.takeWhile_cons_of_neg (by simp [dropWhile_head_false hd])]

theorem collapseHorizRuns_cons_pos {c : Char} {cs : List Char} (h : isHT c) :
    collapseHorizRuns (c :: cs) =
      ' ' :: collapseHorizRuns ((c :: cs).dropWhile isHT) := by
  unfold collapseHorizRuns
  rw [runMap_cons_pos h]
  rfl

theorem collapseHorizRuns_cons_neg {c : Char} {cs : List Char} (h : ¬ isHT c) :
    collapseHorizRuns (c :: cs) = c :: collapseHorizRuns cs := by
  unfold collapseHorizRuns
  rw [runMap_cons_neg h]

/-- Unfold the space-before-newline pass at a space run followed by a
newline: the run is deleted. -/
theorem dropSpacesBeforeNL_cons_nl {cs : List Char}
    (h : ((' ' :: cs).dropWhile (· == ' ')).head? = some '\n') :
    dropSpacesBeforeNL (' ' :: cs) =
      dropSpacesBeforeNL ((' ' :: cs).dropWhile (· == ' ')) := by
  unfold dropSpacesBeforeNL
  rw [runMap_cons_pos (p := (· == ' ')) (by decide)]
  rw [h]
  rfl

/-- Unfold the space-before-newline pass at a space run not followed by a
newline: the run is kept. -/
theorem dropSpacesBeforeNL_cons_keep {cs : List Char}
    (h : ((' ' :: cs).dropWhile (· == ' ')).head? ≠ some '\n') :
    dropSpacesBeforeNL (' ' :: cs) =
      (' ' :: cs).takeWhile (· == ' ') ++
        dropSpacesBeforeNL ((' ' :: cs).dropWhile (· == ' ')) := by
  unfold dropSpacesBeforeNL
  rw [runMap_cons_pos (p := (· == ' ')) (by decide)]
  have : ((((' ' :: cs).dropWhile (· == ' ')).head? == some '\n')) = false := by
    simpa using h
  rw [this]
  rfl

theorem dropSpacesBeforeNL_cons_neg {c : Char} {cs : List Char} (h : c ≠ ' ') :
    dropSpacesBeforeNL (c :: cs) = c :: dropSpacesBeforeNL cs := by
  unfold dropSpacesBeforeNL
  rw [runMap_cons_neg (p := (· == ' ')) (by simpa using h)]

/-- Head preservation: when a string has no leading whitespace run, the
blank-line pass leaves its head alone. -/
theorem collapseBlankRuns_head {t : List Char} (h : t.takeWhile isPyWS = []) :
    (collapseBlankRuns t).head? = t.head? := by
  cases t with
  | nil =>
    unfold collapseBlankRuns
    rw [runMap_nil]
  | cons d ds =>
    have hd : ¬ isPyWS d := by
      by_contra hpd
      rw [List.takeWhile_cons_of_pos hpd] at h
      exact absurd h (by simp)
    rw [collapseBlankRuns_cons_neg hd]
    rfl

theorem collapseHorizRuns_head {t : List Char} (h : t.takeWhile isHT = []) :
    (collapseHorizRuns t).head? = t.head? := by
  cases t with
  | nil =>
    unfold collapseHorizRuns
    rw [runMap_nil]
  | cons d ds =>
    have hd : ¬ isHT d := by
      by_contra hpd
      rw [List.takeWhile_cons_of_pos hpd] at h
      exact absurd h (by simp)
    rw [collapseHorizRuns_cons_neg hd]
    rfl

theorem dropSpacesBeforeNL_head {t : List Char} (h : t.takeWhile (· == ' ') = []) :
    (dropSpacesBeforeNL t).head? = t.head? := by
  cases t with
  | nil =>
    unfold dropSpacesBeforeNL
    rw [runMap_nil]
  | cons d ds =>
    have hd : d ≠ ' ' := by
      by_contra hpd
      rw [List.takeWhile_cons_of_pos (p := (· == ' ')) (by simpa using hpd)] at h
      exact absurd h (by simp)
    rw [dropSpacesBeforeNL_cons_neg hd]
    rfl

/-- `dropWhile` twice is `dropWhile` once. -/
theorem dropWhile_idem (p : Char → Bool) (l : List Char) :
    (l.dropWhile p).dropWhile p = l.dropWhile p := by
  cases hd : l.dropWhile p with
  | nil => rfl
  | cons d ds =>
    rw [List.dropWhile_cons_of_neg (by simp [dropWhile_head_false hd])]

/-- The trim produces an infix of its input. -/
theorem pyStrip_trim_infix_self (s : List Char) : pyStrip s <:+: s := by
  unfold pyStrip
  have h1 : s.dropWhile isPyWS <:+ s := List.dropWhile_suffix _
  have h2 : (s.dropWhile isPyWS).reverse.dropWhile isPyWS <:+
      (s.dropWhile isPyWS).reverse := List.dropWhile_suffix _
  have h3 : ((s.dropWhile isPyWS).reverse.dropWhile isPyWS).reverse <+:
      s.dropWhile isPyWS := List.reverse_suffix.mp (by simpa using h2)
  exact h3.isInfix.trans h1.isInfix

/-- The trimmed string has no leading whitespace. -/
theorem pyStrip_dropWhile (s : List Char) :
    (pyStrip s).dropWhile isPyWS = pyStrip s := by
  unfold pyStrip
  cases hY : (s.dropWhile isPyWS).reverse.dropWhile isPyWS with
  | nil => rfl
  | cons y ys =>
    cases hX : s.dropWhile isPyWS with
    | nil => rw [hX] at hY; simp at hY
    | cons x xs =>
      have hx : isPyWS x = false := dropWhile_head_false hX
      obtain ⟨u, hu⟩ :=
        List.dropWhile_suffix (l := (s.dropWhile isPyWS).reverse) (p := isPyWS)
      rw [hY] at hu
      have hgl : (y :: ys).getLast? = ((s.dropWhile isPyWS).reverse).getLast? := by
        rw [← hu, List.getLast?_append]
        cases hgB : (y :: ys).getLast? with
        | none => rw [List.getLast?_eq_none_iff] at hgB; exact absurd hgB (by simp)
        | some z => rfl
      rw [List.getLast?_reverse, hX] at hgl
      simp only [List.head?_cons] at hgl
      cases hrev : (y :: ys).reverse with
      | nil => exact absurd (congrArg List.length hrev) (by simp)
      | cons r rs =>
        have hr : r = x := by
          have := List.head?_reverse (y :: ys)
          rw [hrev] at this
          simp only [List.head?_cons] at this
          rw [hgl] at this
          exact Option.some.inj this
        rw [List.dropWhile_cons_of_neg (by simp [hr, hx])]

/-- The reversed trimmed string has no leading whitespace either. -/
theorem pyStrip_reverse_dropWhile (s : List Char) :
    ((pyStrip s).reverse).dropWhile isPyWS = (pyStrip s).reverse := by
  unfold pyStrip
  rw [List.reverse_reverse]
  exact dropWhile_idem _ _

/-- The trim is idempotent. -/
theorem pyStrip_idem (s : List Char) : pyStrip (pyStrip s) = pyStrip s := by
  show ((((pyStrip s).dropWhile isPyWS).reverse).dropWhile isPyWS).reverse = pyStrip s
  rw [pyStrip_dropWhile, pyStrip_reverse_dropWhile, List.reverse_reverse]

/-- On a text with no all-whitespace infix of three or more newlines, the
blank-line pass is the identity. -/
theorem collapseBlankRuns_id : ∀ s : List Char,
    (∀ v, v <:+: s → (∀ c ∈ v, isPyWS c = true) → nlCount v ≤ 2) →
    collapseBlankRuns s = s := by
  refine strongLenInd ?_
  intro s ih h
  cases s with
  | nil =>
    unfold collapseBlankRuns
    rw [runMap_nil]
  | cons c cs =>
    by_cases hc : isPyWS c
    · rw [collapseBlankRuns_cons_ws hc]
      have hnl := h _ (List.takeWhile_prefix isPyWS).isInfix
        fun x hx => List.mem_takeWhile_imp hx
      have hcr : collapseRun ((c :: cs).takeWhile isPyWS) =
          (c :: cs).takeWhile isPyWS := by
        unfold collapseRun
        rw [if_neg (by omega)]
      rw [hcr]
      have hsplit : ((c :: cs).takeWhile isPyWS).length +
          ((c :: cs).dropWhile isPyWS).length = (c :: cs).length := by
        rw [← List.length_append, List.takeWhile_append_dropWhile]
      have htk : (c :: cs).takeWhile isPyWS = c :: cs.takeWhile isPyWS :=
        List.takeWhile_cons_of_pos hc
      have hlen : ((c :: cs).dropWhile isPyWS).length < (c :: cs).length := by
        rw [htk] at hsplit
        simp only [List.length_cons] at hsplit ⊢
        omega
      have hrec := ih _ hlen fun v hv hws =>
        h v (hv.trans (List.dropWhile_suffix isPyWS).isInfix) hws
      rw [hrec, List.takeWhile_append_dropWhile]
    · rw [collapseBlankRuns_cons_neg hc]
      rw [ih cs (by simp) fun v hv hws => h v (List.infix_cons hv) hws]

/-- On a text with no tab and no double space, the horizontal-whitespace
pass is the identity. -/
theorem collapseHorizRuns_id : ∀ s : List Char,
    (∀ c ∈ s, c ≠ '\t') → ¬ ([' ', ' '] <:+: s) →
    collapseHorizRuns s = s := by
  refine strongLenInd ?_
  intro s ih ht hd
  cases s with
  | nil =>
    unfold collapseHorizRuns
    rw [runMap_nil]
  | cons c cs =>
    by_cases hc : isHT c
    · have hcs : c = ' ' := by
        have hnt := ht c (List.mem_cons_self c cs)
        simp only [isHT, Bool.or_eq_true, beq_iff_eq] at hc
        tauto
      have htw : cs.takeWhile isHT = [] := by
        cases hcs2 : cs with
        | nil => rfl
        | cons e es =>
          by_cases he : isHT e
          · exfalso
            have he' : e = ' ' := by
              have het := ht e (by
                rw [hcs2]
                exact List.mem_cons_of_mem _ (List.mem_cons_self _ _))
              simp only [isHT, Bool.or_eq_true, beq_iff_eq] at he
              tauto
            refine hd ⟨[], es, ?_⟩
            rw [hcs, hcs2, he']
            simp
          · rw [List.takeWhile_cons_of_neg he]
      rw [collapseHorizRuns_cons_pos hc]
      rw [List.dropWhile_cons_of_pos hc,
        dropWhile_eq_self_of_takeWhile_nil htw]
      rw [ih cs (by simp) (fun x hx => ht x (List.mem_cons_of_mem c hx))
        (fun hF => hd (List.infix_cons hF))]
      rw [hcs]
    · rw [collapseHorizRuns_cons_neg hc]
      rw [ih cs (by simp) (fun x hx => ht x (List.mem_cons_of_mem c hx))
        (fun hF => hd (List.infix_cons hF))]

/-- On a text with no space directly before a newline, the third pass is
the identity. -/
theorem dropSpacesBeforeNL_id : ∀ s : List Char,
    ¬ ([' ', '\n'] <:+: s) → dropSpacesBeforeNL s = s := by
  refine strongLenInd ?_
  intro s ih h
  cases s with
  | nil =>
    unfold dropSpacesBeforeNL
    rw [runMap_nil]
  | cons c cs =>
    by_cases hc : c = ' '
    · subst hc
      have hnext : ((' ' :: cs).dropWhile (· == ' ')).head? ≠ some '\n' := by
        intro hF
        apply h
        obtain ⟨d, ds, hdd⟩ : ∃ d ds, (' ' :: cs).dropWhile (· == ' ') = d :: ds := by
          cases hD : (' ' :: cs).dropWhile (· == ' ') with
          | nil => rw [hD] at hF; exact absurd hF (by simp)
          | cons d ds => exact ⟨d, ds, rfl⟩
        rw [hdd] at hF
        simp only [List.head?_cons, Option.some.injEq] at hF
        subst hF
        have hrun : (' ' :: cs).takeWhile (· == ' ') ≠ [] := by
          rw [List.takeWhile_cons_of_pos (p := (· == ' ')) (by decide)]
          simp
        obtain ⟨R, hR⟩ : ∃ R, (' ' :: cs).takeWhile (· == ' ') = R ++ [' '] := by
          refine ⟨((' ' :: cs).takeWhile (· == ' ')).dropLast, ?_⟩
          have hgl : ((' ' :: cs).takeWhile (· == ' ')).getLast hrun = ' ' := by
            have hmem := List.getLast_mem hrun
            have := List.mem_takeWhile_imp hmem
            simpa using this
          conv_lhs => rw [← List.dropLast_concat_getLast hrun]
          rw [hgl]
        refine ⟨R, ds, ?_⟩
        conv_rhs =>
          rw [← List.takeWhile_append_dropWhile (p := (· == ' ')) (l := ' ' :: cs)]
        rw [hR, hdd]
        simp
      rw [dropSpacesBeforeNL_cons_keep hnext]
      have hsplit : ((' ' :: cs).takeWhile (· == ' ')).length +
          ((' ' :: cs).dropWhile (· == ' ')).length = (' ' :: cs).length := by
        rw [← List.length_append, List.takeWhile_append_dropWhile]
      have htk : (' ' :: cs).takeWhile (· == ' ') = ' ' :: cs.takeWhile (· == ' ') :=
        List.takeWhile_cons_of_pos (p := (· == ' ')) (by decide)
      have hlen : ((' ' :: cs).dropWhile (· == ' ')).length < (' ' :: cs).length := by
        rw [htk] at hsplit
        simp only [List.length_cons] at hsplit ⊢
        omega
      have hrec := ih _ hlen fun hF =>
        h (hF.trans (List.dropWhile_suffix (p := (· == ' '))).isInfix)
      rw [hrec, List.takeWhile_append_dropWhile]
    · rw [dropSpacesBeforeNL_cons_neg hc]
      rw [ih cs (by simp) fun hF => h (List.infix_cons hF)]

/-- Newline counting is monotone under taking infixes. -/
theorem nlCount_infix_le {v w : List Char} (h : v <:+: w) :
    nlCount v ≤ nlCount w := by
  unfold nlCount
  exact h.sublist.countP_le _

theorem nlCount_beforeFirstNL (run : List Char) :
    nlCount (beforeFirstNL run) = 0 := by
  unfold beforeFirstNL nlCount
  rw [List.countP_eq_zero]
  intro a ha
  have := List.mem_takeWhile_imp ha
  simpa using this

theorem nlCount_afterLastNL (run : List Char) :
    nlCount (afterLastNL run) = 0 := by
  unfold afterLastNL nlCount
  rw [List.countP_eq_zero]
  intro a ha
  rw [List.mem_reverse] at ha
  have := List.mem_takeWhile_imp ha
  simpa using this

/-- A collapsed run never holds more than two newlines. -/
theorem nlCount_collapseRun_le (run : List Char) :
    nlCount (collapseRun run) ≤ 2 := by
  unfold collapseRun
  split
  · rw [nlCount_append, nlCount_beforeFirstNL, nlCount_cons, nlCount_cons,
      nlCount_afterLastNL]
    simp
  · next h => omega

/-- After the blank-line pass, every all-whitespace infix holds at most two
newlines: the pass establishes the normal-form property it is identity on. -/
theorem collapseBlankRuns_nl_le : ∀ s : List Char, ∀ v,
    v <:+: collapseBlankRuns s → (∀ c ∈ v, isPyWS c = true) →
    nlCount v ≤ 2 := by
  refine strongLenInd ?_
  intro s ih v hv hws
  cases s with
  | nil =>
    unfold collapseBlankRuns at hv
    rw [runMap_nil] at hv
    rw [List.infix_nil.mp hv]
    simp [nlCount]
  | cons c cs =>
    by_cases hc : isPyWS c
    · rw [collapseBlankRuns_cons_ws hc] at hv
      have hsplit : ((c :: cs).takeWhile isPyWS).length +
          ((c :: cs).dropWhile isPyWS).length = (c :: cs).length := by
        rw [← List.length_append, List.takeWhile_append_dropWhile]
      have htk : (c :: cs).takeWhile isPyWS = c :: cs.takeWhile isPyWS :=
        List.takeWhile_cons_of_pos hc
      have hlen : ((c :: cs).dropWhile isPyWS).length < (c :: cs).length := by
        rw [htk] at hsplit
        simp only [List.length_cons] at hsplit ⊢
        omega
      rcases infix_append_cases hv with h1 | h2 | ⟨v1, v2, rfl, hv1, hv2, hs1, hp2⟩
      · exact Nat.le_trans (nlCount_infix_le h1) (nlCount_collapseRun_le _)
      · exact ih _ hlen v h2 hws
      · exfalso
        obtain ⟨d, ds, rfl⟩ : ∃ d ds, v2 = d :: ds := by
          cases v2 with
          | nil => exact absurd rfl hv2
          | cons d ds => exact ⟨d, ds, rfl⟩
        have hh : (collapseBlankRuns ((c :: cs).dropWhile isPyWS)).head? =
            ((c :: cs).dropWhile isPyWS).head? :=
          collapseBlankRuns_head (takeWhile_dropWhile_nil _ _)
        obtain ⟨u, hu⟩ := hp2
        have hhead : ((c :: cs).dropWhile isPyWS).head? = some d := by
          rw [← hh, ← hu]
          rfl
        obtain ⟨e, es, he⟩ : ∃ e es, (c :: cs).dropWhile isPyWS = e :: es := by
          cases hD : (c :: cs).dropWhile isPyWS with
          | nil => rw [hD] at hhead; exact absurd hhead (by simp)
          | cons e es => exact ⟨e, es, rfl⟩
        have hde : e = d := by
          rw [he] at hhead
          simpa using hhead
        have hnw : isPyWS e = false := dropWhile_head_false he
        have hdw : isPyWS d = true :=
          hws d (List.mem_append_right _ (List.mem_cons_self _ _))
        rw [← hde, hnw] at hdw
        exact absurd hdw (by simp)
    · rw [collapseBlankRuns_cons_neg hc] at hv
      rcases List.infix_cons_iff.mp hv with hpre | hinf
      · cases v with
        | nil => simp [nlCount]
        | cons d ds =>
          have hd : d = c := (List.cons_prefix_cons.mp hpre).1
          have := hws d (List.mem_cons_self _ _)
          rw [hd] at this
          exact absurd this hc
      · exact ih cs (by simp) v hinf hws

/-- Dropping a nonempty leading run shortens the list. -/
theorem dropWhile_cons_length_lt {p : Char → Bool} {c : Char} (cs : List Char)
    (h : p c) : ((c :: cs).dropWhile p).length < (c :: cs).length := by
  rw [List.dropWhile_cons_of_pos h]
  have hle : (cs.dropWhile p).length ≤ cs.length :=
    (List.dropWhile_sublist _).length_le
  simp only [List.length_cons]
  omega

/-- The horizontal-whitespace pass leaves no tab in its output. -/
theorem collapseHorizRuns_no_tab : ∀ s : List Char,
    ∀ c ∈ collapseHorizRuns s, c ≠ '\t' := by
  refine strongLenInd ?_
  intro s ih c hc
  cases s with
  | nil =>
    unfold collapseHorizRuns at hc
    rw [runMap_nil] at hc
    simp at hc
  | cons a as =>
    by_cases ha : isHT a
    · rw [collapseHorizRuns_cons_pos ha] at hc
      rcases List.mem_cons.mp hc with rfl | hmem
      · decide
      · exact ih _ (dropWhile_cons_length_lt as ha) c hmem
    · rw [collapseHorizRuns_cons_neg ha] at hc
      rcases List.mem_cons.mp hc with rfl | hmem
      · intro hF
        subst hF
        exact ha (by decide)
      · exact ih as (by simp) c hmem

/-- The horizontal-whitespace pass leaves no two adjacent spaces. -/
theorem collapseHorizRuns_no_double_space : ∀ s : List Char,
    ¬ ([' ', ' '] <:+: collapseHorizRuns s) := by
  refine strongLenInd ?_
  intro s ih h
  cases s with
  | nil =>
    unfold collapseHorizRuns at h
    rw [runMap_nil] at h
    exact absurd (List.infix_nil.mp h) (by simp)
  | cons a as =>
    by_cases ha : isHT a
    · rw [collapseHorizRuns_cons_pos ha] at h
      rcases List.infix_cons_iff.mp h with hpre | hinf
      · have hpre2 := (List.cons_prefix_cons.mp hpre).2
        have hh : (collapseHorizRuns ((a :: as).dropWhile isHT)).head? =
            ((a :: as).dropWhile isHT).head? :=
          collapseHorizRuns_head (takeWhile_dropWhile_nil _ _)
        obtain ⟨u, hu⟩ := hpre2
        have hhead : ((a :: as).dropWhile isHT).head? = some ' ' := by
          rw [← hh, ← hu]
          rfl
        obtain ⟨e, es, he⟩ : ∃ e es, (a :: as).dropWhile isHT = e :: es := by
          cases hD : (a :: as).dropWhile isHT with
          | nil => rw [hD] at hhead; exact absurd hhead (by simp)
          | cons e es => exact ⟨e, es, rfl⟩
        have hnw : isHT e = false := dropWhile_head_false he
        have hes : e = ' ' := by
          rw [he] at hhead
          simpa using hhead
        rw [hes] at hnw
        exact absurd hnw (by decide)
      · exact ih _ (dropWhile_cons_length_lt as ha) hinf
    · rw [collapseHorizRuns_cons_neg ha] at h
      rcases List.infix_cons_iff.mp h with hpre | hinf
      · have := (List.cons_prefix_cons.mp hpre).1
        exact ha (by rw [← this]; decide)
      · exact ih as (by simp) hinf

/-- The space-before-newline pass leaves no space directly before a
newline. -/
theorem dropSpacesBeforeNL_no_space_nl : ∀ s : List Char,
    ¬ ([' ', '\n'] <:+: dropSpacesBeforeNL s) := by
  refine strongLenInd ?_
  intro s ih h
  cases s with
  | nil =>
    unfold dropSpacesBeforeNL at h
    rw [runMap_nil] at h
    exact absurd (List.infix_nil.mp h) (by simp)
  | cons a as =>
    by_cases ha : a = ' '
    · subst ha
      by_cases hnl : ((' ' :: as).dropWhile (· == ' ')).head? = some '\n'
      · rw [dropSpacesBeforeNL_cons_nl hnl] at h
        exact ih _ (dropWhile_cons_length_lt as (by decide)) h
      · rw [dropSpacesBeforeNL_cons_keep hnl] at h
        rcases infix_append_cases h with h1 | h2 | ⟨v1, v2, heq, hv1, hv2, hs1, hp2⟩
        · have hmem : '\n' ∈ (' ' :: as).takeWhile (· == ' ') :=
            h1.sublist.subset (by simp)
          exact absurd (List.mem_takeWhile_imp hmem) (by decide)
        · exact ih _ (dropWhile_cons_length_lt as (by decide)) h2
        · cases v1 with
          | nil => exact absurd rfl hv1
          | cons x xs =>
            cases xs with
            | nil =>
              rw [List.cons_append, List.nil_append] at heq
              injection heq with h1 h2
              obtain ⟨u, hu⟩ := hp2
              have hh : (dropSpacesBeforeNL ((' ' :: as).dropWhile (· == ' '))).head? =
                  ((' ' :: as).dropWhile (· == ' ')).head? :=
                dropSpacesBeforeNL_head (takeWhile_dropWhile_nil _ _)
              apply hnl
              rw [← hh, ← hu, ← h2]
              rfl
            | cons x2 xs2 =>
              rw [List.cons_append, List.cons_append] at heq
              injection heq with h1 heq2
              injection heq2 with h2 heq3
              have h3 := heq3.symm
              rw [List.append_eq_nil] at h3
              exact hv2 h3.2
    · rw [dropSpacesBeforeNL_cons_neg ha] at h
      rcases List.infix_cons_iff.mp h with hpre | hinf
      · exact ha ((List.cons_prefix_cons.mp hpre).1).symm
      · exact ih as (by simp) hinf

/-- The space-before-newline pass only deletes characters. -/
theorem dropSpacesBeforeNL_sublist : ∀ s : List Char,
    List.Sublist (dropSpacesBeforeNL s) s := by
  refine strongLenInd ?_
  intro s ih
  cases s with
  | nil =>
    unfold dropSpacesBeforeNL
    rw [runMap_nil]
  | cons a as =>
    by_cases ha : a = ' '
    · subst ha
      by_cases hnl : ((' ' :: as).dropWhile (· == ' ')).head? = some '\n'
      · rw [dropSpacesBeforeNL_cons_nl hnl]
        exact (ih _ (dropWhile_cons_length_lt as (by decide))).trans
          (List.dropWhile_sublist _)
      · rw [dropSpacesBeforeNL_cons_keep hnl]
        conv_rhs =>
          rw [← List.takeWhile_append_dropWhile (p := (· == ' ')) (l := ' ' :: as)]
        exact List.Sublist.append_left
          (ih _ (dropWhile_cons_length_lt as (by decide))) _
    · rw [dropSpacesBeforeNL_cons_neg ha]
      exact List.Sublist.cons₂ _ (ih as (by simp))

/-- The space-before-newline pass cannot create a double space. -/
theorem dropSpacesBeforeNL_keeps_no_double_space : ∀ s : List Char,
    ¬ ([' ', ' '] <:+: s) → ¬ ([' ', ' '] <:+: dropSpacesBeforeNL s) := by
  refine strongLenInd ?_
  intro s ih hin h
  cases s with
  | nil =>
    unfold dropSpacesBeforeNL at h
    rw [runMap_nil] at h
    exact absurd (List.infix_nil.mp h) (by simp)
  | cons a as =>
    by_cases ha : a = ' '
    · subst ha
      have htw : as.takeWhile (· == ' ') = [] := by
        cases has : as with
        | nil => rfl
        | cons b bs =>
          by_cases hb : b = ' '
          · exfalso
            apply hin
            subst hb
            exact ⟨[], bs, by simp [has]⟩
          · rw [List.takeWhile_cons_of_neg (by simpa using hb)]
      have hdw : as.dropWhile (· == ' ') = as :=
        dropWhile_eq_self_of_takeWhile_nil htw
      by_cases hnl : ((' ' :: as).dropWhile (· == ' ')).head? = some '\n'
      · rw [dropSpacesBeforeNL_cons_nl hnl] at h
        rw [List.dropWhile_cons_of_pos (p := (· == ' ')) (by decide), hdw] at h
        exact ih as (by simp) (fun hF => hin (List.infix_cons hF)) h
      · rw [dropSpacesBeforeNL_cons_keep hnl] at h
        rw [List.takeWhile_cons_of_pos (p := (· == ' ')) (by decide), htw,
          List.dropWhile_cons_of_pos (p := (· == ' ')) (by decide), hdw,
          List.singleton_append] at h
        rcases List.infix_cons_iff.mp h with hpre | hinf
        · have hpre2 := (List.cons_prefix_cons.mp hpre).2
          have hh : (dropSpacesBeforeNL as).head? = as.head? :=
            dropSpacesBeforeNL_head htw
          obtain ⟨u, hu⟩ := hpre2
          have hhead : as.head? = some ' ' := by
            rw [← hh, ← hu]
            rfl
          cases has : as with
          | nil =>
            rw [has] at hhead
            simp at hhead
          | cons b bs =>
            rw [has] at hhead
            have hb : b = ' ' := by simpa using hhead
            rw [has, hb,
              List.takeWhile_cons_of_pos (p := (· == ' ')) (by decide)] at htw
            simp at htw
        · exact ih as (by simp) (fun hF => hin (List.infix_cons hF)) hinf
    · rw [dropSpacesBeforeNL_cons_neg ha] at h
      rcases List.infix_cons_iff.mp h with hpre | hinf
      · exact ha ((List.cons_prefix_cons.mp hpre).1).symm
      · exact ih as (by simp) (fun hF => hin (List.infix_cons hF)) hinf

/-- Simulation, prefix form: an all-whitespace prefix of the
horizontal-whitespace pass output is newline-dominated by an
all-whitespace prefix of the input. -/
theorem collapseHorizRuns_ws_prefix : ∀ t : List Char, ∀ v,
    v <+: collapseHorizRuns t → (∀ c ∈ v, isPyWS c = true) →
    ∃ w, w <+: t ∧ (∀ c ∈ w, isPyWS c = true) ∧ nlCount v ≤ nlCount w := by
  refine strongLenInd ?_
  intro t ih v hv hws
  cases t with
  | nil =>
    unfold collapseHorizRuns at hv
    rw [runMap_nil] at hv
    rw [List.prefix_nil.mp hv]
    exact ⟨[], List.nil_prefix, by simp, by simp⟩
  | cons a as =>
    by_cases ha : isHT a
    · rw [collapseHorizRuns_cons_pos ha] at hv
      cases v with
      | nil => exact ⟨[], List.nil_prefix, by simp, by simp [nlCount]⟩
      | cons d ds =>
        obtain ⟨hda, hds⟩ := List.cons_prefix_cons.mp hv
        obtain ⟨w, hw1, hw2, hw3⟩ := ih _ (dropWhile_cons_length_lt as ha) ds hds
          (fun c hc => hws c (List.mem_cons_of_mem _ hc))
        refine ⟨(a :: as).takeWhile isHT ++ w, ?_, ?_, ?_⟩
        · obtain ⟨u, hu⟩ := hw1
          exact ⟨u, by
            rw [List.append_assoc, hu, List.takeWhile_append_dropWhile]⟩
        · intro c hc
          rcases List.mem_append.mp hc with hc1 | hc2
          · have hHT := List.mem_takeWhile_imp hc1
            simp only [isHT, Bool.or_eq_true, beq_iff_eq] at hHT
            rcases hHT with rfl | rfl <;> decide
          · exact hw2 c hc2
        · have hco : nlCount (d :: ds) = nlCount ds := by
            rw [nlCount_cons, hda]
            have hne : ((' ' == '\n') : Bool) = false := by decide
            rw [hne]
            simp
          rw [hco, nlCount_append]
          exact Nat.le_trans hw3 (Nat.le_add_left _ _)
    · rw [collapseHorizRuns_cons_neg ha] at hv
      cases v with
      | nil => exact ⟨[], List.nil_prefix, by simp, by simp [nlCount]⟩
      | cons d ds =>
        obtain ⟨hda, hds⟩ := List.cons_prefix_cons.mp hv
        obtain ⟨w, hw1, hw2, hw3⟩ := ih as (by simp) ds hds
          (fun c hc => hws c (List.mem_cons_of_mem _ hc))
        refine ⟨a :: w, List.cons_prefix_cons.mpr ⟨rfl, hw1⟩, ?_, ?_⟩
        · intro c hc
          rcases List.mem_cons.mp hc with rfl | hc2
          · have := hws d (List.mem_cons_self _ _)
            rw [hda] at this
            exact this
          · exact hw2 c hc2
        · rw [hda, nlCount_cons, nlCount_cons]
          exact Nat.add_le_add_left hw3 _

/-- Simulation, infix form, for the horizontal-whitespace pass. -/
theorem collapseHorizRuns_ws_infix : ∀ t : List Char, ∀ v,
    v <:+: collapseHorizRuns t → (∀ c ∈ v, isPyWS c = true) →
    ∃ w, w <:+: t ∧ (∀ c ∈ w, isPyWS c = true) ∧ nlCount v ≤ nlCount w := by
  refine strongLenInd ?_
  intro t ih v hv hws
  cases t with
  | nil =>
    unfold collapseHorizRuns at hv
    rw [runMap_nil] at hv
    rw [List.infix_nil.mp hv]
    exact ⟨[], List.nil_infix, by simp, by simp⟩
  | cons a as =>
    by_cases ha : isHT a
    · rw [collapseHorizRuns_cons_pos ha] at hv
      rcases List.infix_cons_iff.mp hv with hpre | hinf
      · rw [← collapseHorizRuns_cons_pos ha] at hpre
        obtain ⟨w, hw1, hw2, hw3⟩ := collapseHorizRuns_ws_prefix (a :: as) v hpre hws
        exact ⟨w, hw1.isInfix, hw2, hw3⟩
      · obtain ⟨w, hw1, hw2, hw3⟩ := ih _ (dropWhile_cons_length_lt as ha) v hinf hws
        exact ⟨w, hw1.trans (List.dropWhile_suffix _).isInfix, hw2, hw3⟩
    · rw [collapseHorizRuns_cons_neg ha] at hv
      rcases List.infix_cons_iff.mp hv with hpre | hinf
      · rw [← collapseHorizRuns_cons_neg ha] at hpre
        obtain ⟨w, hw1, hw2, hw3⟩ := collapseHorizRuns_ws_prefix (a :: as) v hpre hws
        exact ⟨w, hw1.isInfix, hw2, hw3⟩
      · obtain ⟨w, hw1, hw2, hw3⟩ := ih as (by simp) v hinf hws
        exact ⟨w, List.infix_cons hw1, hw2, hw3⟩

/-- Simulation, prefix form: an all-whitespace prefix of the
space-before-newline pass output is newline-dominated by an all-whitespace
prefix of the input. -/
theorem dropSpacesBeforeNL_ws_prefix : ∀ t : List Char, ∀ v,
    v <+: dropSpacesBeforeNL t → (∀ c ∈ v, isPyWS c = true) →
    ∃ w, w <+: t ∧ (∀ c ∈ w, isPyWS c = true) ∧ nlCount v ≤ nlCount w := by
  refine strongLenInd ?_
  intro t ih v hv hws
  cases t with
  | nil =>
    unfold dropSpacesBeforeNL at hv
    rw [runMap_nil] at hv
    rw [List.prefix_nil.mp hv]
    exact ⟨[], List.nil_prefix, by simp, by simp⟩
  | cons a as =>
    by_cases ha : a = ' '
    · subst ha
      by_cases hnl : ((' ' :: as).dropWhile (· == ' ')).head? = some '\n'
      · rw [dropSpacesBeforeNL_cons_nl hnl] at hv
        obtain ⟨w, hw1, hw2, hw3⟩ :=
          ih _ (dropWhile_cons_length_lt as (by decide)) v hv hws
        refine ⟨(' ' :: as).takeWhile (· == ' ') ++ w, ?_, ?_, ?_⟩
        · obtain ⟨u, hu⟩ := hw1
          exact ⟨u, by
            rw [List.append_assoc, hu, List.takeWhile_append_dropWhile]⟩
        · intro c hc
          rcases List.mem_append.mp hc with hc1 | hc2
          · have hmt := List.mem_takeWhile_imp hc1
            have hcs : c = ' ' := by simpa using hmt
            rw [hcs]
            decide
          · exact hw2 c hc2
        · rw [nlCount_append]
          exact Nat.le_trans hw3 (Nat.le_add_left _ _)
      · rw [dropSpacesBeforeNL_cons_keep hnl] at hv
        rcases prefix_append_cases hv with h1 | ⟨v2, rfl, h2⟩
        · refine ⟨[], List.nil_prefix, by simp, ?_⟩
          have hz : nlCount v = 0 := by
            unfold nlCount
            rw [List.countP_eq_zero]
            intro c hc
            have hmt := List.mem_takeWhile_imp (h1.sublist.subset hc)
            have hcs : c = ' ' := by simpa using hmt
            rw [hcs]
            decide
          omega
        · obtain ⟨w, hw1, hw2, hw3⟩ :=
            ih _ (dropWhile_cons_length_lt as (by decide)) v2 h2
              (fun c hc => hws c (List.mem_append_right _ hc))
          refine ⟨(' ' :: as).takeWhile (· == ' ') ++ w, ?_, ?_, ?_⟩
          · obtain ⟨u, hu⟩ := hw1
            exact ⟨u, by
              rw [List.append_assoc, hu, List.takeWhile_append_dropWhile]⟩
          · intro c hc
            rcases List.mem_append.mp hc with hc1 | hc2
            · have hmt := List.mem_takeWhile_imp hc1
              have hcs : c = ' ' := by simpa using hmt
              rw [hcs]
              decide
            · exact hw2 c hc2
          · rw [nlCount_append, nlCount_append]
            exact Nat.add_le_add_left hw3 _
    · rw [dropSpacesBeforeNL_cons_neg ha] at hv
      cases v with
      | nil => exact ⟨[], List.nil_prefix, by simp, by simp [nlCount]⟩
      | cons d ds =>
        obtain ⟨hda, hds⟩ := List.cons_prefix_cons.mp hv
        obtain ⟨w, hw1, hw2, hw3⟩ := ih as (by simp) ds hds
          (fun c hc => hws c (List.mem_cons_of_mem _ hc))
        refine ⟨a :: w, List.cons_prefix_cons.mpr ⟨rfl, hw1⟩, ?_, ?_⟩
        · intro c hc
          rcases List.mem_cons.mp hc with rfl | hc2
          · have hd := hws d (List.mem_cons_self _ _)
            rw [hda] at hd
            exact hd
          · exact hw2 c hc2
        · rw [hda, nlCount_cons, nlCount_cons]
          exact Nat.add_le_add_left hw3 _

/-- Simulation, infix form, for the space-before-newline pass. -/
theorem dropSpacesBeforeNL_ws_infix : ∀ t : List Char, ∀ v,
    v <:+: dropSpacesBeforeNL t → (∀ c ∈ v, isPyWS c = true) →
    ∃ w, w <:+: t ∧ (∀ c ∈ w, isPyWS c = true) ∧ nlCount v ≤ nlCount w := by
  refine strongLenInd ?_
  intro t ih v hv hws
  cases t with
  | nil =>
    unfold dropSpacesBeforeNL at hv
    rw [runMap_nil] at hv
    rw [List.infix_nil.mp hv]
    exact ⟨[], List.nil_infix, by simp, by simp⟩
  | cons a as =>
    by_cases ha : a = ' '
    · subst ha
      by_cases hnl : ((' ' :: as).dropWhile (· == ' ')).head? = some '\n'
      · rw [dropSpacesBeforeNL_cons_nl hnl] at hv
        obtain ⟨w, hw1, hw2, hw3⟩ :=
          ih _ (dropWhile_cons_length_lt as (by decide)) v hv hws
        exact ⟨w, hw1.trans (List.dropWhile_suffix _).isInfix, hw2, hw3⟩
      · rw [dropSpacesBeforeNL_cons_keep hnl] at hv
        rcases infix_append_cases hv with h1 | h2 | ⟨v1, v2, rfl, hv1, hv2, hs1, hp2⟩
        · refine ⟨[], List.nil_infix, by simp, ?_⟩
          have hz : nlCount v = 0 := by
            unfold nlCount
            rw [List.countP_eq_zero]
            intro c hc
            have hmt := List.mem_takeWhile_imp (h1.sublist.subset hc)
            have hcs : c = ' ' := by simpa using hmt
            rw [hcs]
            decide
          omega
        · obtain ⟨w, hw1, hw2, hw3⟩ :=
            ih _ (dropWhile_cons_length_lt as (by decide)) v h2 hws
          exact ⟨w, hw1.trans (List.dropWhile_suffix _).isInfix, hw2, hw3⟩
        · obtain ⟨w, hw1, hw2, hw3⟩ := dropSpacesBeforeNL_ws_prefix
            ((' ' :: as).dropWhile (· == ' ')) v2 hp2
            (fun c hc => hws c (List.mem_append_right _ hc))
          refine ⟨w, hw1.isInfix.trans (List.dropWhile_suffix _).isInfix, hw2, ?_⟩
          rw [nlCount_append]
          have hz1 : nlCount v1 = 0 := by
            unfold nlCount
            rw [List.countP_eq_zero]
            intro c hc
            have hmt := List.mem_takeWhile_imp (hs1.sublist.subset hc)
            have hcs : c = ' ' := by simpa using hmt
            rw [hcs]
            decide
          omega
    · rw [dropSpacesBeforeNL_cons_neg ha] at hv
      rcases List.infix_cons_iff.mp hv with hpre | hinf
      · rw [← dropSpacesBeforeNL_cons_neg ha] at hpre
        obtain ⟨w, hw1, hw2, hw3⟩ := dropSpacesBeforeNL_ws_prefix (a :: as) v hpre hws
        exact ⟨w, hw1.isInfix, hw2, hw3⟩
      · obtain ⟨w, hw1, hw2, hw3⟩ := ih as (by simp) v hinf hws
        exact ⟨w, List.infix_cons hw1, hw2, hw3⟩

/-- The normalization written with the three run-level passes. -/
theorem normalizeWS_spec_form (s : List Char) : normalizeWS s =
    pyStrip (dropSpacesBeforeNL (collapseHorizRuns (collapseBlankRuns s))) := by
  unfold normalizeWS
  rw [reSub_stepBlank_eq, reSub_stepHT_eq, reSub_stepSpaceNL_eq]

/-- C7: the whitespace-normalization step (lines 122-126 of `app.py`) is
idempotent: applying it to an already-normalized string returns that string
unchanged. -/
theorem claim7_normalize_idempotent (s : List Char) :
    normalizeWS (normalizeWS s) = normalizeWS s := by
  have hNdef : normalizeWS s =
      pyStrip (dropSpacesBeforeNL (collapseHorizRuns (collapseBlankRuns s))) :=
    normalizeWS_spec_form s
  set N := normalizeWS s with hN
  have hP1 : ∀ v, v <:+: N → (∀ c ∈ v, isPyWS c = true) → nlCount v ≤ 2 := by
    intro v hv hws
    have hv' : v <:+: dropSpacesBeforeNL (collapseHorizRuns (collapseBlankRuns s)) := by
      refine List.IsInfix.trans ?_ (pyStrip_trim_infix_self _)
      rw [← hNdef]
      exact hv
    obtain ⟨w2, hw21, hw22, hw23⟩ := dropSpacesBeforeNL_ws_infix _ v hv' hws
    obtain ⟨w1, hw11, hw12, hw13⟩ := collapseHorizRuns_ws_infix _ w2 hw21 hw22
    have hle := collapseBlankRuns_nl_le s w1 hw11 hw12
    omega
  have hTab : ∀ c ∈ N, c ≠ '\t' := by
    intro c hc
    have hc0 : c ∈ pyStrip (dropSpacesBeforeNL (collapseHorizRuns (collapseBlankRuns s))) := by
      rw [← hNdef]
      exact hc
    have hc1 := (pyStrip_trim_infix_self _).sublist.subset hc0
    have hc2 := (dropSpacesBeforeNL_sublist _).subset hc1
    exact collapseHorizRuns_no_tab _ c hc2
  have hDS : ¬ ([' ', ' '] <:+: N) := by
    intro hF
    have hF0 : [' ', ' '] <:+:
        pyStrip (dropSpacesBeforeNL (collapseHorizRuns (collapseBlankRuns s))) := by
      rw [← hNdef]
      exact hF
    exact dropSpacesBeforeNL_keeps_no_double_space _
      (collapseHorizRuns_no_double_space _) (hF0.trans (pyStrip_trim_infix_self _))
  have hSN : ¬ ([' ', '\n'] <:+: N) := by
    intro hF
    have hF0 : [' ', '\n'] <:+:
        pyStrip (dropSpacesBeforeNL (collapseHorizRuns (collapseBlankRuns s))) := by
      rw [← hNdef]
      exact hF
    exact dropSpacesBeforeNL_no_space_nl _ (hF0.trans (pyStrip_trim_infix_self _))
  rw [normalizeWS_spec_form N, collapseBlankRuns_id N hP1,
    collapseHorizRuns_id N hTab hDS, dropSpacesBeforeNL_id N hSN, hNdef]
  exact pyStrip_idem _

end Blogzcode
